import Mathlib

/-!
Verification of the screenplay import/export engine
(src/services/scriptImportService.ts) against its specification.

Strings from the source are modelled as `List Char`; a JavaScript string
`s` corresponds to `s.toList`.  JavaScript's `String.prototype.trim`,
`toUpperCase`, `toLowerCase` are modelled character-wise (the inputs the
engine cares about are ASCII).  Regular expressions from the source are
embedded by structural simulation of the backtracking engine; each
simulation is documented at its definition site.
-/

namespace ScriptEngine

/-- Element kinds of `SceneElement.type` in the source
(`'action' | 'dialogue' | 'parenthetical' | 'transition' | 'character'`). -/
inductive ElemType where
  | action
  | dialogue
  | parenthetical
  | transition
  | character
deriving DecidableEq, Repr

/-- SceneElement from the source: a tagged line or merged block.
`character` is the optional speaking-character field. -/
structure SceneElement where
  type : ElemType
  content : List Char
  character : Option (List Char) := none
deriving DecidableEq, Repr

/-- ParsedScene from the source. -/
structure ParsedScene where
  sceneNumber : Nat
  heading : List Char
  location : List Char
  timeOfDay : List Char
  interior : Bool
  content : List SceneElement
deriving DecidableEq, Repr

/-- ParsedScript from the source.  `metadata.importedAt` is a wall-clock
timestamp and is not modelled; `format` models `metadata.format`. -/
structure ParsedScript where
  title : List Char
  authors : List (List Char)
  rawText : List Char
  scenes : List ParsedScene
  characters : List (List Char)
  locations : List (List Char)
  format : List Char
deriving DecidableEq, Repr

/-- Whitespace test used for JavaScript `trim` and the regex class `\s`. -/
def isWs (c : Char) : Bool := c.isWhitespace

/-- Drop leading whitespace. -/
def trimL (l : List Char) : List Char := l.dropWhile isWs

/-- Drop trailing whitespace. -/
def trimR (l : List Char) : List Char := (l.reverse.dropWhile isWs).reverse

/-- JavaScript `String.prototype.trim`. -/
def trim (l : List Char) : List Char := trimL (trimR l)

/-- JavaScript `toUpperCase`, character-wise (ASCII). -/
def toUpper (l : List Char) : List Char := l.map Char.toUpper

/-- JavaScript `toLowerCase`, character-wise (ASCII). -/
def toLower (l : List Char) : List Char := l.map Char.toLower

/-- Literal prefix test on character lists. -/
def startsWithL : List Char → List Char → Bool
  | _, [] => true
  | [], _ :: _ => false
  | c :: cs, p :: ps => c == p && startsWithL cs ps

/-- Case-insensitive prefix test (regex `/^pat/i` for a literal `pat`). -/
def startsWithCI (l p : List Char) : Bool := startsWithL (toUpper l) (toUpper p)

/-- Literal suffix test on character lists. -/
def endsWithL (l s : List Char) : Bool := startsWithL l.reverse s.reverse

/-- JavaScript `text.split('\n')`. -/
def splitNl : List Char → List (List Char)
  | [] => [[]]
  | c :: cs =>
    if c = '\n' then [] :: splitNl cs
    else
      match splitNl cs with
      | l :: ls => (c :: l) :: ls
      | [] => [[c]]

/-- Insertion into a JavaScript `Set` (insertion order kept, duplicates
ignored), as used for the `characters` and `locations` sets. -/
def addSet (l : List (List Char)) (a : List Char) : List (List Char) :=
  if a ∈ l then l else l ++ [a]

/-- First-occurrence de-duplication, the meaning of `[...new Set(xs)]`. -/
def dedupFirst (l : List (List Char)) : List (List Char) :=
  l.foldl addSet []

/-- Apply a function to the last element of a list, the model of a
JavaScript mutation of the array's final element. -/
def updateLast {α : Type} (f : α → α) : List α → List α
  | [] => []
  | [a] => [f a]
  | a :: b :: r => a :: updateLast f (b :: r)

/-- Last element of a list satisfying a predicate
(JavaScript `Array.prototype.findLast`). -/
def findLastP {α : Type} (p : α → Bool) : List α → Option α
  | [] => none
  | a :: r =>
    match findLastP p r with
    | some b => some b
    | none => if p a then some a else none

/-- Match of one of the scene-heading prefixes `INT.`, `EXT.`, `INT/EXT.`,
`I/E.` (case-insensitive) at the head of the line, returning the rest.
This is both the anchored test `/^(?:INT\.|EXT\.|INT\/EXT\.|I\/E\.)/i`
(via `Option.isSome`) and the prefix step of the location regex. -/
def matchPrefixCI (l : List Char) : Option (List Char) :=
  if startsWithCI l "INT.".toList then some (l.drop 4)
  else if startsWithCI l "EXT.".toList then some (l.drop 4)
  else if startsWithCI l "INT/EXT.".toList then some (l.drop 8)
  else if startsWithCI l "I/E.".toList then some (l.drop 4)
  else none

/-- The test `/^(?:INT|I\/E)/i` deciding `interior` (line 84 / 201). -/
def isIntTest (t : List Char) : Bool :=
  startsWithCI t "INT".toList || startsWithCI t "I/E".toList

/-- The en dash appearing in the source's dash character class `[-–]`. -/
def enDash : Char := Char.ofNat 8211

/-- Membership in the source's dash character class `[-–]`. -/
def isDash (c : Char) : Bool := c == '-' || c == enDash

/-- Simulation of the optional tail `(?:\s*[-–]\s*(.+))?$` of the
location regex, tried after the lazy group has consumed its prefix:
greedy `\s*`, a dash, then `(.+)` which must be nonempty; when everything
after the dash is whitespace the inner `\s*` backtracks and group 2 is
the final whitespace character. -/
def dashTail (l : List Char) : Option (List Char) :=
  match l.dropWhile isWs with
  | [] => none
  | c :: cs =>
    if isDash c then
      if cs.isEmpty then none
      else
        match cs.dropWhile isWs with
        | [] => some (cs.drop (cs.length - 1))
        | g => some g
    else none

/-- Simulation of the lazy group `(.+?)` of
`/(?:INT\.|EXT\.|INT\/EXT\.|I\/E\.)\s*(.+?)(?:\s*[-–]\s*(.+))?$/i`:
the group grows one character at a time (accumulated reversed in `acc`)
and after each character the engine attempts the optional dash tail;
at the end of input the optional group is absent and `$` matches. -/
def lazyLoc : List Char → List Char → List Char × Option (List Char)
  | acc, [] => (acc.reverse, none)
  | acc, c :: cs =>
    match dashTail cs with
    | some g2 => ((c :: acc).reverse, some g2)
    | none => lazyLoc (c :: acc) cs

/-- Simulation of the unanchored search of the location regex: the engine
tries each start position left to right; at a position where a heading
prefix matches, the leading greedy `\s*` consumes whitespace and the lazy
group needs at least one character — if none remains but the skipped
whitespace is nonempty, `\s*` backtracks and the group is the last
whitespace character; if the prefix has nothing after it at all, the
position fails and the search advances. -/
def locSearch : List Char → Option (List Char × Option (List Char))
  | [] => none
  | c :: cs =>
    match matchPrefixCI (c :: cs) with
    | some rest =>
      match rest.dropWhile isWs with
      | [] =>
        if rest.isEmpty then locSearch cs
        else some (rest.drop (rest.length - 1), none)
      | r => some (lazyLoc [] r)
    | none => locSearch cs

/-- Location / time-of-day extraction from a trimmed heading line
(lines 85–88 / 202–205 of the source):
`location = locMatch?.[1]?.trim() || trimmed` and
`timeOfDay = locMatch?.[2]?.trim() || 'DAY'`. -/
def headingLoc (t : List Char) : List Char × List Char :=
  match locSearch t with
  | none => (t, "DAY".toList)
  | some (g1, g2?) =>
    let loc := trim g1
    let loc := if loc.isEmpty then t else loc
    let tod :=
      match g2? with
      | none => "DAY".toList
      | some g2 => let td := trim g2; if td.isEmpty then "DAY".toList else td
    (loc, tod)

/-- Uppercase ASCII letter, the regex class `[A-Z]`. -/
def isUpperAZ (c : Char) : Bool := 'A' ≤ c && c ≤ 'Z'

/-- The regex class appearing in the character-cue pattern,
`[A-Z\s\.\-\']`. -/
def isCueClass (c : Char) : Bool :=
  isUpperAZ c || isWs c || c == '.' || c == '-' || c == '\''

/-- Simulation of the optional extension `\s*\(.*\)$` after the cue name:
whitespace, an opening parenthesis, anything, and a closing parenthesis
at the very end. -/
def extMatch (l : List Char) : Bool :=
  match l.dropWhile isWs with
  | c :: r => c == '(' && !r.isEmpty && r.getLastD ' ' == ')'
  | [] => false

/-- Backtracking of the greedy group in
`/^([A-Z][A-Z\s\.\-\']+)(?:\s*\(.*\))?$/`: the class run after the first
letter is tried from its maximal length downwards (at least one
character); a length succeeds when the remaining suffix is empty or
matches the parenthetical extension.  Returns the trimmed capture. -/
def cueTry (c : Char) (rest : List Char) : Nat → Option (List Char)
  | 0 => none
  | j + 1 =>
    if (rest.drop (j + 1)).isEmpty || extMatch (rest.drop (j + 1)) then
      some (trim (c :: rest.take (j + 1)))
    else cueTry c rest j

/-- The character-cue regex match of line 118, returning the trimmed
captured name when the whole line matches. -/
def cueMatch : List Char → Option (List Char)
  | [] => none
  | c :: rest =>
    if isUpperAZ c then cueTry c rest (rest.takeWhile isCueClass).length
    else none

/-- Reserved words excluded from character cues (line 121). -/
def reservedCues : List (List Char) :=
  ["INT", "EXT", "CUT TO", "FADE IN", "FADE OUT", "DISSOLVE TO"].map String.toList

/-- Full character-cue acceptance (lines 118–121): regex match, trimmed
length below 40, no colon, and the captured name not reserved. -/
def cueAccept (t : List Char) : Option (List Char) :=
  match cueMatch t with
  | some ch =>
    if t.length < 40 && !(t.contains ':') && !(reservedCues.contains ch) then some ch
    else none
  | none => none

/-- Parenthetical test of line 129: starts with `(` and ends with `)`. -/
def parenTest (t : List Char) : Bool :=
  t.head? == some '(' && t.getLastD ' ' == ')'

/-- Transition keywords of the regex on line 135. -/
def transitionKws : List (List Char) :=
  ["CUT TO", "FADE TO", "DISSOLVE TO", "SMASH CUT", "FADE IN", "FADE OUT"].map
    String.toList

/-- Transition test `/(CUT TO|FADE TO|DISSOLVE TO|SMASH CUT|FADE IN|FADE OUT):?$/i`:
unanchored at the front, so the line must end with a keyword, optionally
followed by a colon. -/
def transitionTest (t : List Char) : Bool :=
  transitionKws.any fun kw =>
    endsWithL (toUpper t) kw || endsWithL (toUpper t) (kw ++ [':'])

/-- Parser state of the Fountain body scan: the completed scenes, the
scene currently receiving elements (the source mutates the object it has
already pushed into `scenes`, so the current scene is kept separate and
appended on output), the two document-level sets, and the scene
counter. -/
structure FState where
  finished : List ParsedScene
  current : Option ParsedScene
  characters : List (List Char)
  locations : List (List Char)
  sceneNumber : Nat
deriving DecidableEq, Repr

/-- Initial body-scan state. -/
def initFState : FState := ⟨[], none, [], [], 0⟩

/-- Scene synthesis of lines 104–115: when a non-heading line arrives with
no scene open, open the `OPENING` scene.  Note that the synthesized
location `UNKNOWN` is not added to the `locations` set. -/
def ensureScene (st : FState) : FState :=
  match st.current with
  | some _ => st
  | none =>
    let sn := st.sceneNumber + 1
    { st with
      sceneNumber := sn,
      current := some ⟨sn, "OPENING".toList, "UNKNOWN".toList, "DAY".toList, true, []⟩ }

/-- Element predicate for `findLast(e => e.type === 'character')`. -/
def isCharElem (e : SceneElement) : Bool := e.type = ElemType.character

/-- Classification of a trimmed, nonempty, non-heading body line
(lines 117–153), applied when a current scene exists. -/
def classifyBody (st : FState) (t : List Char) : FState :=
  match st.current with
  | none => st
  | some sc =>
    match cueAccept t with
    | some ch =>
      { st with
        characters := addSet st.characters ch,
        current := some { sc with content := sc.content ++ [⟨ElemType.character, ch, some ch⟩] } }
    | none =>
      if parenTest t then
        { st with current := some { sc with content := sc.content ++ [⟨ElemType.parenthetical, t, none⟩] } }
      else if transitionTest t then
        { st with current := some { sc with content := sc.content ++ [⟨ElemType.transition, t, none⟩] } }
      else
        match sc.content.getLast? with
        | some le =>
          if le.type = ElemType.dialogue then
            { st with current := some { sc with
                content := updateLast (fun d => { d with content := d.content ++ ' ' :: t }) sc.content } }
          else if le.type = ElemType.character ∨ le.type = ElemType.parenthetical then
            { st with current := some { sc with
                content := sc.content ++
                  [⟨ElemType.dialogue, t, (findLastP isCharElem sc.content).bind SceneElement.character⟩] } }
          else
            { st with current := some { sc with content := sc.content ++ [⟨ElemType.action, t, none⟩] } }
        | none =>
          { st with current := some { sc with content := sc.content ++ [⟨ElemType.action, t, none⟩] } }

/-- The scene-heading test of line 82: the anchored prefix regex or a
leading dot (forced heading). -/
def headingLike (t : List Char) : Bool :=
  (matchPrefixCI t).isSome || t.head? == some '.'

/-- One iteration of the body scan (lines 76–154). -/
def bodyStep (st : FState) (line : List Char) : FState :=
  let t := trim line
  if t.isEmpty then st
  else if headingLike t then
    let sn := st.sceneNumber + 1
    let lt := headingLoc t
    { finished := st.finished ++ st.current.toList,
      current := some ⟨sn, t, lt.1, lt.2, isIntTest t, []⟩,
      characters := st.characters,
      locations := addSet st.locations (toUpper lt.1),
      sceneNumber := sn }
  else classifyBody (ensureScene st) t

/-- Match of `/^Title:\s*(.+)/i` against a trimmed line. -/
def titleMatch (t : List Char) : Option (List Char) :=
  if startsWithCI t "TITLE:".toList then
    let r := (t.drop 6).dropWhile isWs
    if r.isEmpty then none else some r
  else none

/-- Match of `/^(?:Author|Authors|Credit):\s*(.+)/i` against a trimmed
line; the alternation is tried left to right. -/
def authorMatch (t : List Char) : Option (List Char) :=
  if startsWithCI t "AUTHOR:".toList then
    let r := (t.drop 7).dropWhile isWs
    if r.isEmpty then none else some r
  else if startsWithCI t "AUTHORS:".toList then
    let r := (t.drop 8).dropWhile isWs
    if r.isEmpty then none else some r
  else if startsWithCI t "CREDIT:".toList then
    let r := (t.drop 7).dropWhile isWs
    if r.isEmpty then none else some r
  else none

/-- Title-page scan of lines 61–73: consume at most the first 50 lines,
recording `Title:` (last one wins) and appending authors, stopping early
at a scene-heading-shaped line; every other line — blank or not — is
consumed and skipped.  Returns the title, the authors and the remaining
lines for the body scan. -/
def titleScan : Nat → List (List Char) → List Char → List (List Char) →
    List Char × List (List Char) × List (List Char)
  | _, [], title, authors => (title, authors, [])
  | i, l :: ls, title, authors =>
    if 50 ≤ i then (title, authors, l :: ls)
    else
      let t := trim l
      if t.isEmpty then titleScan (i + 1) ls title authors
      else
        match titleMatch t with
        | some tt => titleScan (i + 1) ls tt authors
        | none =>
          match authorMatch t with
          | some a => titleScan (i + 1) ls title (authors ++ [a])
          | none =>
            if (matchPrefixCI t).isSome then (title, authors, l :: ls)
            else titleScan (i + 1) ls title authors

/-- The Fountain parser (`parseFountain`, lines 49–165 of the source). -/
def parseFountain (text : List Char) : ParsedScript :=
  let lines := splitNl text
  let tar := titleScan 0 lines [] []
  let st := tar.2.2.foldl bodyStep initFState
  { title := if tar.1.isEmpty then "Untitled Script".toList else tar.1,
    authors := tar.2.1,
    rawText := text,
    scenes := st.finished ++ st.current.toList,
    characters := st.characters,
    locations := st.locations,
    format := "fountain".toList }

/-- One `<Paragraph>` node as read by `parseFDX`: the optional `Type`
attribute and the optional text content of its `<Text>` child. -/
structure FDXParagraph where
  type : Option (List Char)
  text : Option (List Char)
deriving DecidableEq, Repr

/-- The slice of a DOM parse result that `parseFDX` reads: the title-page
title content, the `Title` attribute of the root element, the title-page
author contents, and the `Paragraph` nodes in document order.
`DOMParser.parseFromString` itself is a browser API, not repository code;
per the WHATWG DOM standard it never throws, and on input that is not
well-formed XML it returns an error document — a document containing none
of these nodes (see `fdxErrorDom`). -/
structure FDXDom where
  titleContent : Option (List Char)
  titleAttr : Option (List Char)
  authorContents : List (List Char)
  paragraphs : List FDXParagraph
deriving DecidableEq, Repr

/-- The DOM result that `DOMParser.parseFromString` produces for input
that is not well-formed XML: an error document holding a `parsererror`
element and therefore no `TitlePage`, no `FinalDraft` attribute and no
`Paragraph` nodes.  `parseFDX` never inspects `parsererror`. -/
def fdxErrorDom : FDXDom := ⟨none, none, [], []⟩

/-- Removal of a trailing parenthetical from a character paragraph
(line 221): `textContent.replace(/\s*\(.*\)$/, '')`.  The regex matches
iff the text ends with `)` and contains `(` before the last position; the
leftmost match starts at the whitespace run before the first `(`. -/
def stripTrailingParen (t : List Char) : List Char :=
  if t.getLastD ' ' == ')' && t.dropLast.contains '(' then
    trimR (t.take (t.findIdx (· == '(')))
  else t

/-- Classification of a non-heading FDX paragraph by its type tag
(lines 220–243), applied when a current scene exists. -/
def fdxClassify (st : FState) (ty txt : List Char) : FState :=
  match st.current with
  | none => st
  | some sc =>
    if ty = "character".toList then
      let ch := trim (stripTrailingParen txt)
      { st with
        characters := addSet st.characters ch,
        current := some { sc with content := sc.content ++ [⟨ElemType.character, txt, some ch⟩] } }
    else if ty = "dialogue".toList then
      { st with current := some { sc with
          content := sc.content ++
            [⟨ElemType.dialogue, txt, (findLastP isCharElem sc.content).bind SceneElement.character⟩] } }
    else if ty = "parenthetical".toList then
      { st with current := some { sc with content := sc.content ++ [⟨ElemType.parenthetical, txt, none⟩] } }
    else if ty = "transition".toList then
      { st with current := some { sc with content := sc.content ++ [⟨ElemType.transition, txt, none⟩] } }
    else
      { st with current := some { sc with content := sc.content ++ [⟨ElemType.action, txt, none⟩] } }

/-- One iteration of the paragraph walk of `parseFDX` (lines 194–244). -/
def fdxStep (st : FState) (p : FDXParagraph) : FState :=
  let ty := (p.type.map toLower).getD []
  let txt := (p.text.map trim).getD []
  if txt.isEmpty then st
  else if ty = "scene heading".toList ∨ ty = "slug line".toList then
    let sn := st.sceneNumber + 1
    let lt := headingLoc txt
    { finished := st.finished ++ st.current.toList,
      current := some ⟨sn, txt, lt.1, lt.2, isIntTest txt, []⟩,
      characters := st.characters,
      locations := addSet st.locations (toUpper lt.1),
      sceneNumber := sn }
  else fdxClassify (ensureScene st) ty txt

/-- Reconstruction of one scene element's slice of `rawText`
(lines 249–254). -/
def fdxElemText (e : SceneElement) : List Char :=
  match e.type with
  | ElemType.character => '\n' :: e.content ++ ['\n']
  | ElemType.dialogue => e.content ++ ['\n']
  | ElemType.parenthetical => e.content ++ ['\n']
  | _ => e.content ++ ['\n', '\n']

/-- Reconstruction of `rawText` from the scene list (lines 246–256). -/
def fdxRawText (scenes : List ParsedScene) : List Char :=
  scenes.foldl
    (fun acc sc =>
      acc ++ sc.heading ++ ['\n', '\n'] ++
        sc.content.foldl (fun a e => a ++ fdxElemText e) [] ++ ['\n'])
    []

/-- The Final-Draft XML parser (`parseFDX`, lines 171–264 of the source),
taking the DOM parse result as input. -/
def parseFDX (dom : FDXDom) : ParsedScript :=
  let fallback :=
    match dom.titleAttr with
    | some a => if a.isEmpty then "Untitled Script".toList else a
    | none => "Untitled Script".toList
  let title :=
    match dom.titleContent with
    | some t => let tt := trim t; if tt.isEmpty then fallback else tt
    | none => fallback
  let authors := (dom.authorContents.map trim).filter (fun a => !a.isEmpty)
  let st := dom.paragraphs.foldl fdxStep initFState
  let scenes := st.finished ++ st.current.toList
  { title := title,
    authors := authors,
    rawText := fdxRawText scenes,
    scenes := scenes,
    characters := st.characters,
    locations := st.locations,
    format := "fdx".toList }

/-- One beat of the Director export. -/
structure Beat where
  beat_id : List Char
  characters : List (List Char)
  action : List Char
  dialogue : Option (List Char)
  location : List Char
  camera : List Char
  lighting : List Char
deriving DecidableEq, Repr

/-- The id-free part of a beat; ids carry a timestamp and a counter and
are exempt from the determinism contract. -/
structure BeatCore where
  characters : List (List Char)
  action : List Char
  dialogue : Option (List Char)
  location : List Char
  camera : List Char
  lighting : List Char
deriving DecidableEq, Repr

/-- Projection of a beat to its id-free part. -/
def beatCore (b : Beat) : BeatCore :=
  ⟨b.characters, b.action, b.dialogue, b.location, b.camera, b.lighting⟩

/-- Handle generation: `'@' + name.replace(/\s/g, '')`. -/
def handleOf (name : List Char) : List Char :=
  '@' :: name.filter (fun c => !isWs c)

/-- Beat id `beat_${Date.now()}_${counter}`; the wall clock is the `now`
parameter. -/
def beatId (now counter : Nat) : List Char :=
  "beat_".toList ++ (Nat.repr now).toList ++ '_' :: (Nat.repr counter).toList

/-- Character record of the Director export. -/
structure CharRecord where
  name : List Char
  handle : List Char
  role : List Char
  traits : List (List Char)
  visuals : List Char
deriving DecidableEq, Repr

/-- Location record of the Director export. -/
structure LocRecord where
  name : List Char
  handle : List Char
  visuals : List Char
deriving DecidableEq, Repr

/-- The Director export payload. -/
structure DirectorExport where
  script : List Char
  characters : List CharRecord
  locations : List LocRecord
  beats : List Beat
deriving DecidableEq, Repr

/-- Beat accumulation state: beats so far and the beat counter. -/
structure EState where
  beats : List Beat
  counter : Nat
deriving DecidableEq, Repr

/-- Lighting tag for a scene (`scene.interior ? 'Interior' : 'Natural'`). -/
def lightingOf (interior : Bool) : List Char :=
  if interior then "Interior".toList else "Natural".toList

/-- Mutation of the open beat by a dialogue element (lines 375–381): set
`dialogue` to the element's text (last one wins) and append the speaking
character's handle when the character field is truthy and the handle is
not yet present. -/
def dialogueUpd (e : SceneElement) (b : Beat) : Beat :=
  { b with
    dialogue := some e.content,
    characters :=
      match e.character with
      | some c => if c.isEmpty then b.characters else addSet b.characters (handleOf c)
      | none => b.characters }

/-- One iteration over a scene's elements in `exportToDirector`
(lines 359–382).  The running triple is the beat state, the
`sceneCharacters` list, and whether a current beat is open; the current
beat, when open, is the last beat of the list, and the source's mutation
of `currentBeat` is modelled by `updateLast`.  The source reads
`element.character!` on character elements; the parsers always set that
field, and an absent field is modelled as the empty name. -/
def elemStep (now : Nat) (loc : List Char) (interior : Bool)
    (acc : EState × List (List Char) × Bool) (e : SceneElement) :
    EState × List (List Char) × Bool :=
  let st := acc.1
  let chars := acc.2.1
  let hasCur := acc.2.2
  let chars := if e.type = ElemType.character then chars ++ [e.character.getD []] else chars
  if e.type = ElemType.action then
    let cnt := st.counter + 1
    (⟨st.beats ++
        [⟨beatId now cnt, (dedupFirst chars).map handleOf, e.content, none, loc,
          "Standard".toList, lightingOf interior⟩],
      cnt⟩,
     chars, true)
  else if e.type = ElemType.dialogue ∧ hasCur then
    (⟨updateLast (dialogueUpd e) st.beats, st.counter⟩, chars, hasCur)
  else (st, chars, hasCur)

/-- Beat synthesis after a scene's elements (lines 384–394): when the
whole beat list so far holds no beat with this scene's location, append
an `Establishing` beat made from the scene heading and the scene's
deduplicated character handles. -/
def synthPart (now : Nat) (sc : ParsedScene) (st : EState)
    (sceneChars : List (List Char)) : EState :=
  if (st.beats.filter (fun b => b.location = sc.location)).length = 0 then
    ⟨st.beats ++
        [⟨beatId now (st.counter + 1), (dedupFirst sceneChars).map handleOf,
          sc.heading, none, sc.location, "Establishing".toList,
          lightingOf sc.interior⟩],
      st.counter + 1⟩
  else st

/-- Processing of one scene in `exportToDirector` (lines 355–395): walk
the elements, then run the synthesis check. -/
def sceneFold (now : Nat) (st : EState) (sc : ParsedScene) : EState :=
  let r := sc.content.foldl (elemStep now sc.location sc.interior) (st, [], false)
  synthPart now sc r.1 r.2.1

/-- The Scene/Beat Extractor and Export Serializer (`exportToDirector`,
lines 351–407 of the source).  `Date.now()` is the `now` parameter. -/
def exportToDirector (now : Nat) (parsed : ParsedScript) : DirectorExport :=
  let st := parsed.scenes.foldl (sceneFold now) ⟨[], 0⟩
  { script := parsed.rawText,
    characters := parsed.characters.map fun name =>
      ⟨name, handleOf name, "Character".toList, [], "Character: ".toList ++ name⟩,
    locations := parsed.locations.map fun name =>
      ⟨name, handleOf name, "Location: ".toList ++ name⟩,
    beats := st.beats }

/-! Concrete inputs used by the theorems below. -/

/-- The exact Fountain input of the spec's concrete scenario (§8.7). -/
def c1Input : List Char :=
  "Title: Test\n\nINT. DINER - DAY\n\nJOE\n(tired)\nI need coffee.\n\nShe pours it.".toList

/-- The document the Fountain parser actually produces for `c1Input`:
the blank line before `She pours it.` is skipped without resetting any
state, so that line is merged into the preceding dialogue element rather
than becoming an `action` element. -/
def c1Expected : ParsedScript :=
  { title := "Test".toList,
    authors := [],
    rawText := c1Input,
    scenes :=
      [{ sceneNumber := 1,
         heading := "INT. DINER - DAY".toList,
         location := "DINER".toList,
         timeOfDay := "DAY".toList,
         interior := true,
         content :=
           [⟨ElemType.character, "JOE".toList, some "JOE".toList⟩,
            ⟨ElemType.parenthetical, "(tired)".toList, none⟩,
            ⟨ElemType.dialogue, "I need coffee. She pours it.".toList, some "JOE".toList⟩] }],
    characters := ["JOE".toList],
    locations := ["DINER".toList],
    format := "fountain".toList }

/-- A two-scene document in which both scenes share a location and the
second scene has no `action` elements. -/
def c4Doc : ParsedScript :=
  { title := "T".toList, authors := [], rawText := [],
    scenes :=
      [⟨1, "H1".toList, "LOC".toList, "DAY".toList, true,
        [⟨ElemType.action, "a".toList, none⟩]⟩,
       ⟨2, "H2".toList, "LOC".toList, "DAY".toList, true, []⟩],
    characters := [], locations := [], format := "fountain".toList }

/-- An FDX DOM whose single paragraph is untyped action text, forcing the
synthesized `OPENING` scene. -/
def fdxActionOnly : FDXDom :=
  ⟨none, none, [], [⟨none, some "Hello.".toList⟩]⟩

/-- An FDX DOM with two character paragraphs whose names differ only in
letter case. -/
def fdxCaseDup : FDXDom :=
  ⟨none, none, [],
   [⟨some "Character".toList, some "Joe".toList⟩,
    ⟨some "Dialogue".toList, some "x".toList⟩,
    ⟨some "Character".toList, some "JOE".toList⟩]⟩

/-- Split of the heading remainder as the claim describes it: at the
first dash, location before it, time of day after it, `DAY` when no dash
is present.  This definition follows the spec's words and is compared
against the source-derived `headingLoc`. -/
def c7ClaimSplit (rem : List Char) : List Char × List Char :=
  match rem.findIdx? isDash with
  | some q => (trim (rem.take q), trim (rem.drop (q + 1)))
  | none => (trim rem, "DAY".toList)

/-! Theorems for the claims. -/

/-- Claim C1, counterexample: on the spec's concrete scenario input the
parser produces three elements — character, parenthetical, dialogue —
and no `action` element at all, because `She pours it.` is merged into
the preceding dialogue across the blank line. -/
theorem C1_counterexample :
    (parseFountain c1Input).scenes.map (fun sc => sc.content.map SceneElement.type) =
      [[ElemType.character, ElemType.parenthetical, ElemType.dialogue]] := by
  decide

/-- Claim C1 (amended): on the concrete scenario input the parser yields
title `Test`; one scene with location `DINER`, time of day `DAY`,
interior; elements character `JOE`, parenthetical `(tired)`, and one
dialogue `I need coffee. She pours it.` attributed to `JOE` (the action
line having been merged into the dialogue); characters `{JOE}`;
locations `{DINER}`. -/
theorem C1_amended : parseFountain c1Input = c1Expected := by
  decide

/-- Claim C2, counterexample: a document whose first (and only) line is
plain action text produces no scene at all — the title-page scan
consumes the entire document before any scene can be synthesized. -/
theorem C2_counterexample : (parseFountain "She walks.".toList).scenes = [] := by
  decide

/-- Claim C3: `parseFDX` never raises on malformed input.  `DOMParser`
returns an error document (modelled by `fdxErrorDom`) for input that is
not well-formed XML, the code never checks it, and the parse returns an
ordinary document with zero scenes and the default title. -/
theorem C3_fdx_silent_empty :
    parseFDX fdxErrorDom =
      { title := "Untitled Script".toList, authors := [], rawText := [],
        scenes := [], characters := [], locations := [], format := "fdx".toList } := by
  decide

/-- Claim C4, counterexample: in `c4Doc` the second scene has zero
`action` elements, yet no beat is synthesized for it — the synthesis
check filters the whole beat list by location and the first scene already
produced a beat with location `LOC`.  The export holds exactly one beat,
whose action is `a`, not the second scene's heading `H2`. -/
theorem C4_counterexample :
    (exportToDirector 0 c4Doc).beats.map Beat.action = ["a".toList] ∧
      c4Doc.scenes.map ParsedScene.heading = ["H1".toList, "H2".toList] ∧
      (c4Doc.scenes.getD 1 ⟨0, [], [], [], true, []⟩).content = [] := by
  refine ⟨by decide, by decide, by decide⟩

/-- Claim C5, counterexample: three failures of the claimed set
equalities.  First, a synthesized `OPENING` scene has location `UNKNOWN`
but the `locations` set stays empty.  Second, `parseFDX` keeps character
names' original casing, so `Joe` and `JOE` both appear.  Third,
`parseFountain` uppercases entries of `locations` while the scene keeps
the heading's original casing, so the two collections differ as sets of
strings. -/
theorem C5_counterexample :
    ((parseFDX fdxActionOnly).scenes.map ParsedScene.location = ["UNKNOWN".toList] ∧
      (parseFDX fdxActionOnly).locations = []) ∧
    (parseFDX fdxCaseDup).characters = ["Joe".toList, "JOE".toList] ∧
    ((parseFountain "int. diner - day".toList).scenes.map ParsedScene.location =
        ["diner".toList] ∧
      (parseFountain "int. diner - day".toList).locations = ["DINER".toList]) := by
  refine ⟨⟨by decide, by decide⟩, by decide, by decide, by decide⟩

/-- Claim C7, counterexample: for the heading `INT. BAR -` the parser
keeps the whole remainder `BAR -` as the location (the trailing dash has
nothing after it, so the regex's optional dash group never matches),
while splitting on the first dash as the claim states would give
location `BAR`. -/
theorem C7_counterexample :
    (parseFountain "INT. BAR -".toList).scenes.map ParsedScene.location =
        ["BAR -".toList] ∧
      (c7ClaimSplit " BAR -".toList).1 = "BAR".toList ∧
      "BAR -".toList ≠ "BAR".toList := by
  refine ⟨by decide, by decide, by decide⟩

/-- Claim C8: the Fountain parser is total — for every input it returns
a `ParsedScript` whose format tag is `fountain` and whose `rawText` is
the input itself; there is no failing path (the embedding is a total
function, mirroring the source, which contains no throwing operation). -/
theorem C8_total (text : List Char) :
    ∃ d : ParsedScript,
      parseFountain text = d ∧ d.format = "fountain".toList ∧ d.rawText = text :=
  ⟨parseFountain text, rfl, rfl, rfl⟩

/-! Determinism of the exporter modulo beat ids (claim C9). -/

/-- Field equality transport: equal beat cores give equal locations. -/
lemma beatCore_location {b₁ b₂ : Beat} (h : beatCore b₁ = beatCore b₂) :
    b₁.location = b₂.location := congrArg BeatCore.location h

/-- Equal beat cores give equal character lists. -/
lemma beatCore_characters {b₁ b₂ : Beat} (h : beatCore b₁ = beatCore b₂) :
    b₁.characters = b₂.characters := congrArg BeatCore.characters h

/-- The dialogue mutation acts on the id-free part of a beat only. -/
lemma dialogueUpd_core (e : SceneElement) {b₁ b₂ : Beat}
    (h : beatCore b₁ = beatCore b₂) :
    beatCore (dialogueUpd e b₁) = beatCore (dialogueUpd e b₂) := by
  cases b₁ with
  | mk i₁ ch₁ a₁ d₁ l₁ cam₁ li₁ =>
    cases b₂ with
    | mk i₂ ch₂ a₂ d₂ l₂ cam₂ li₂ =>
      simp only [beatCore, BeatCore.mk.injEq] at h
      obtain ⟨h1, h2, h3, h4, h5, h6⟩ := h
      subst h1 h2 h3 h4 h5 h6
      simp [dialogueUpd, beatCore]

/-- Updating the last elements of two lists with equal beat-core images
keeps the images equal, when the update respects cores. -/
lemma updateLast_map_core (f : Beat → Beat)
    (hf : ∀ b₁ b₂, beatCore b₁ = beatCore b₂ → beatCore (f b₁) = beatCore (f b₂)) :
    ∀ l₁ l₂ : List Beat, l₁.map beatCore = l₂.map beatCore →
      (updateLast f l₁).map beatCore = (updateLast f l₂).map beatCore := by
  intro l₁
  induction l₁ with
  | nil => intro l₂ h; cases l₂ <;> simp_all [updateLast]
  | cons a r ih =>
    intro l₂ h
    cases l₂ with
    | nil => simp at h
    | cons a₂ r₂ =>
      simp only [List.map_cons, List.cons.injEq] at h
      obtain ⟨ha, hr⟩ := h
      cases r with
      | nil =>
        cases r₂ with
        | nil => simp [updateLast, hf _ _ ha]
        | cons x y => simp at hr
      | cons b rb =>
        cases r₂ with
        | nil => simp at hr
        | cons b₂ rb₂ =>
          simp only [updateLast, List.map_cons, List.cons.injEq]
          exact ⟨ha, ih _ hr⟩

/-- Filtering two beat lists with equal core images by a location gives
equally many results. -/
lemma filter_loc_length (L : List Char) :
    ∀ l₁ l₂ : List Beat, l₁.map beatCore = l₂.map beatCore →
      (l₁.filter fun b => b.location = L).length =
        (l₂.filter fun b => b.location = L).length := by
  intro l₁
  induction l₁ with
  | nil => intro l₂ h; cases l₂ <;> simp_all
  | cons a r ih =>
    intro l₂ h
    cases l₂ with
    | nil => simp at h
    | cons a₂ r₂ =>
      simp only [List.map_cons, List.cons.injEq] at h
      obtain ⟨ha, hr⟩ := h
      have hloc := beatCore_location ha
      simp only [List.filter_cons, hloc]
      split
      · simp [ih _ hr]
      · exact ih _ hr

/-- One element step preserves core equality of the accumulation state. -/
lemma elemStep_core (now₁ now₂ : Nat) (loc : List Char) (int : Bool)
    (e : SceneElement) (s₁ s₂ : EState) (chars : List (List Char)) (hc : Bool)
    (hb : s₁.beats.map beatCore = s₂.beats.map beatCore)
    (hn : s₁.counter = s₂.counter) :
    (elemStep now₁ loc int (s₁, chars, hc) e).1.beats.map beatCore =
        (elemStep now₂ loc int (s₂, chars, hc) e).1.beats.map beatCore ∧
      (elemStep now₁ loc int (s₁, chars, hc) e).1.counter =
        (elemStep now₂ loc int (s₂, chars, hc) e).1.counter ∧
      (elemStep now₁ loc int (s₁, chars, hc) e).2 =
        (elemStep now₂ loc int (s₂, chars, hc) e).2 := by
  unfold elemStep
  by_cases h1 : e.type = ElemType.action
  · simp [h1, hn, hb, beatCore]
  · by_cases h2 : e.type = ElemType.dialogue ∧ hc = true
    · simp only [h1, if_false, h2, if_true, hn]
      refine ⟨?_, rfl, rfl⟩
      exact updateLast_map_core (dialogueUpd e) (fun _ _ => dialogueUpd_core e) _ _ hb
    · simp only [h1, if_false]
      have : ¬(e.type = ElemType.dialogue ∧ hc = true) := h2
      simp [this, hb, hn]

/-- Folding one scene's elements preserves core equality. -/
lemma foldl_elemStep_core (now₁ now₂ : Nat) (loc : List Char) (int : Bool) :
    ∀ (content : List SceneElement) (s₁ s₂ : EState) (chars : List (List Char))
      (hc : Bool),
      s₁.beats.map beatCore = s₂.beats.map beatCore → s₁.counter = s₂.counter →
      (content.foldl (elemStep now₁ loc int) (s₁, chars, hc)).1.beats.map beatCore =
          (content.foldl (elemStep now₂ loc int) (s₂, chars, hc)).1.beats.map beatCore ∧
        (content.foldl (elemStep now₁ loc int) (s₁, chars, hc)).1.counter =
          (content.foldl (elemStep now₂ loc int) (s₂, chars, hc)).1.counter ∧
        (content.foldl (elemStep now₁ loc int) (s₁, chars, hc)).2 =
          (content.foldl (elemStep now₂ loc int) (s₂, chars, hc)).2 := by
  intro content
  induction content with
  | nil => intro s₁ s₂ chars hc hb hn; exact ⟨hb, hn, rfl⟩
  | cons e rest ih =>
    intro s₁ s₂ chars hc hb hn
    simp only [List.foldl_cons]
    obtain ⟨hb', hn', hx⟩ := elemStep_core now₁ now₂ loc int e s₁ s₂ chars hc hb hn
    have h₁ :
        elemStep now₁ loc int (s₁, chars, hc) e =
          ((elemStep now₁ loc int (s₁, chars, hc) e).1,
            (elemStep now₁ loc int (s₁, chars, hc) e).2.1,
            (elemStep now₁ loc int (s₁, chars, hc) e).2.2) := rfl
    have h₂ :
        elemStep now₂ loc int (s₂, chars, hc) e =
          ((elemStep now₂ loc int (s₂, chars, hc) e).1,
            (elemStep now₂ loc int (s₂, chars, hc) e).2.1,
            (elemStep now₂ loc int (s₂, chars, hc) e).2.2) := rfl
    rw [h₁, h₂, ← hx]
    exact ih _ _ _ _ hb' hn'

/-- The synthesis check preserves core equality of the beat state. -/
lemma synthPart_core (now₁ now₂ : Nat) (sc : ParsedScene) (t₁ t₂ : EState)
    (c₁ c₂ : List (List Char))
    (hb : t₁.beats.map beatCore = t₂.beats.map beatCore)
    (hn : t₁.counter = t₂.counter) (hc : c₁ = c₂) :
    (synthPart now₁ sc t₁ c₁).beats.map beatCore =
        (synthPart now₂ sc t₂ c₂).beats.map beatCore ∧
      (synthPart now₁ sc t₁ c₁).counter = (synthPart now₂ sc t₂ c₂).counter := by
  unfold synthPart
  have hlen := filter_loc_length sc.location _ _ hb
  by_cases hz : (t₁.beats.filter fun b => b.location = sc.location).length = 0
  · rw [if_pos hz, if_pos (hlen ▸ hz)]
    simp [hb, hn, hc, beatCore]
  · rw [if_neg hz, if_neg (hlen ▸ hz)]
    exact ⟨hb, hn⟩

/-- Processing one scene preserves core equality of the beat state. -/
lemma sceneFold_core (now₁ now₂ : Nat) (sc : ParsedScene) (s₁ s₂ : EState)
    (hb : s₁.beats.map beatCore = s₂.beats.map beatCore)
    (hn : s₁.counter = s₂.counter) :
    (sceneFold now₁ s₁ sc).beats.map beatCore =
        (sceneFold now₂ s₂ sc).beats.map beatCore ∧
      (sceneFold now₁ s₁ sc).counter = (sceneFold now₂ s₂ sc).counter := by
  unfold sceneFold
  obtain ⟨hb', hn', hx⟩ :=
    foldl_elemStep_core now₁ now₂ sc.location sc.interior sc.content s₁ s₂ [] false hb hn
  have hchars :
      (sc.content.foldl (elemStep now₁ sc.location sc.interior) (s₁, [], false)).2.1 =
        (sc.content.foldl (elemStep now₂ sc.location sc.interior) (s₂, [], false)).2.1 :=
    congrArg Prod.fst hx
  exact synthPart_core now₁ now₂ sc _ _ _ _ hb' hn' hchars

/-- Claim C9: the Scene/Beat Extractor is deterministic modulo beat ids —
two runs of `exportToDirector` on the same document (with different wall
clocks) produce beat lists of equal length that agree pairwise on
characters, action, dialogue, location, camera and lighting. -/
theorem C9_export_deterministic (parsed : ParsedScript) (now₁ now₂ : Nat) :
    (exportToDirector now₁ parsed).beats.map beatCore =
      (exportToDirector now₂ parsed).beats.map beatCore := by
  unfold exportToDirector
  suffices h :
      ∀ (scenes : List ParsedScene) (s₁ s₂ : EState),
        s₁.beats.map beatCore = s₂.beats.map beatCore → s₁.counter = s₂.counter →
        (scenes.foldl (sceneFold now₁) s₁).beats.map beatCore =
            (scenes.foldl (sceneFold now₂) s₂).beats.map beatCore ∧
          (scenes.foldl (sceneFold now₁) s₁).counter =
            (scenes.foldl (sceneFold now₂) s₂).counter by
    exact (h parsed.scenes ⟨[], 0⟩ ⟨[], 0⟩ rfl rfl).1
  intro scenes
  induction scenes with
  | nil => intro s₁ s₂ hb hn; exact ⟨hb, hn⟩
  | cons sc rest ih =>
    intro s₁ s₂ hb hn
    simp only [List.foldl_cons]
    obtain ⟨hb', hn'⟩ := sceneFold_core now₁ now₂ sc s₁ s₂ hb hn
    exact ih _ _ hb' hn'

/-! Blank-line handling and dialogue continuation (claim C10). -/

/-- Updating the last element of `l ++ [a]` touches exactly `a`. -/
lemma updateLast_concat {α : Type} (f : α → α) :
    ∀ (l : List α) (a : α), updateLast f (l ++ [a]) = l ++ [f a] := by
  intro l
  induction l with
  | nil => intro a; rfl
  | cons x xs ih =>
    intro a
    cases xs with
    | nil => rfl
    | cons y ys =>
      show x :: updateLast f ((y :: ys) ++ [a]) = x :: ((y :: ys) ++ [f a])
      rw [ih]

/-- A state whose current scene ends in a dialogue element, for the C10
witness. -/
def c10St : FState :=
  ⟨[], some ⟨1, "INT. A - DAY".toList, "A".toList, "DAY".toList, true,
      [⟨ElemType.dialogue, "Hi.".toList, some "JOE".toList⟩]⟩,
    ["JOE".toList], ["A".toList], 1⟩

/-- Claim C10: blank lines are skipped without resetting any state, and a
line that is not classified as a heading, cue, parenthetical or
transition is merged (space-joined) into the current scene's trailing
dialogue element instead of starting a new action element — so the merge
also happens across blank lines. -/
theorem C10_blank_keeps_dialogue :
    (∀ (st : FState) (line : List Char), trim line = [] → bodyStep st line = st) ∧
    (∀ (st : FState) (sc : ParsedScene) (i : List SceneElement) (d : SceneElement)
        (line : List Char),
      st.current = some sc →
      sc.content = i ++ [d] →
      d.type = ElemType.dialogue →
      trim line ≠ [] →
      headingLike (trim line) = false →
      cueAccept (trim line) = none →
      parenTest (trim line) = false →
      transitionTest (trim line) = false →
      bodyStep st line =
        { st with current := some { sc with
            content := i ++ [{ d with content := d.content ++ ' ' :: trim line }] } }) := by
  constructor
  · intro st line h
    simp [bodyStep, h]
  · intro st sc i d line hcur hcont hd hne hh hcue hp htr
    have hie : (trim line).isEmpty = false := by
      cases hq : trim line with
      | nil => exact absurd hq hne
      | cons a b => rfl
    simp only [bodyStep, hie, Bool.false_eq_true, if_false, hh, ensureScene, hcur,
      classifyBody, hcue, hp, htr]
    rw [hcont, List.getLast?_concat]
    simp only [hd, if_true, updateLast_concat, reduceIte]

/-- Witness for claim C10 at concrete inputs: a blank line leaves the
state untouched, and the following plain line is merged into the
trailing dialogue element. -/
theorem C10_blank_keeps_dialogue_witness :
    bodyStep c10St "".toList = c10St ∧
      bodyStep c10St "and more".toList =
        { c10St with current := some ⟨1, "INT. A - DAY".toList, "A".toList,
            "DAY".toList, true,
            [⟨ElemType.dialogue, "Hi. and more".toList, some "JOE".toList⟩]⟩ } := by
  constructor
  · exact C10_blank_keeps_dialogue.1 c10St "".toList rfl
  · rw [C10_blank_keeps_dialogue.2 c10St _ []
      ⟨ElemType.dialogue, "Hi.".toList, some "JOE".toList⟩ "and more".toList
      rfl rfl rfl (by decide) (by decide) (by decide) (by decide) (by decide)]
    decide

/-! Synthesis of the `OPENING` scene (claim C2). -/

/-- Blank lines leave the body-scan state untouched. -/
lemma bodyStep_blank (st : FState) (line : List Char) (h : trim line = []) :
    bodyStep st line = st := by
  simp [bodyStep, h]

/-- A scene with the synthesized `OPENING` metadata. -/
def isOpeningLike (sc : ParsedScene) : Prop :=
  sc.sceneNumber = 1 ∧ sc.heading = "OPENING".toList ∧
    sc.location = "UNKNOWN".toList ∧ sc.timeOfDay = "DAY".toList ∧
    sc.interior = true

/-- Classifying a body line never touches the finished list and only
appends to or merges inside the current scene's content. -/
lemma classifyBody_shape (fin : List ParsedScene) (sc : ParsedScene)
    (chars locs : List (List Char)) (n : Nat) (t : List Char) :
    (classifyBody ⟨fin, some sc, chars, locs, n⟩ t).finished = fin ∧
      (classifyBody ⟨fin, some sc, chars, locs, n⟩ t).locations = locs ∧
      ∃ c', (classifyBody ⟨fin, some sc, chars, locs, n⟩ t).current =
        some { sc with content := c' } := by
  unfold classifyBody
  dsimp only
  split
  · exact ⟨rfl, rfl, _, rfl⟩
  · split
    · exact ⟨rfl, rfl, _, rfl⟩
    · split
      · exact ⟨rfl, rfl, _, rfl⟩
      · split
        · split
          · exact ⟨rfl, rfl, _, rfl⟩
          · split
            · exact ⟨rfl, rfl, _, rfl⟩
            · exact ⟨rfl, rfl, _, rfl⟩
        · exact ⟨rfl, rfl, _, rfl⟩

/-- Invariant for documents without heading lines: nothing finished and
the current scene is the synthesized `OPENING` scene. -/
def openingInv (st : FState) : Prop :=
  st.finished = [] ∧ ∃ sc, st.current = some sc ∧ isOpeningLike sc

/-- A non-heading line preserves the `OPENING` invariant. -/
lemma bodyStep_no_heading_inv (st : FState) (line : List Char)
    (hnh : headingLike (trim line) = false) (hInv : openingInv st) :
    openingInv (bodyStep st line) := by
  obtain ⟨hfin, sc, hcur, hop⟩ := hInv
  by_cases hb : trim line = []
  · rw [bodyStep_blank st line hb]; exact ⟨hfin, sc, hcur, hop⟩
  · have hie : (trim line).isEmpty = false := by
      cases hq : trim line with
      | nil => exact absurd hq hb
      | cons a b => rfl
    cases st with
    | mk fin cur chars locs n =>
      simp only at hcur hfin
      subst hcur hfin
      simp only [bodyStep, hie, Bool.false_eq_true, if_false, hnh, ensureScene]
      obtain ⟨h1, h2, c', h3⟩ := classifyBody_shape [] sc chars locs n (trim line)
      refine ⟨h1, { sc with content := c' }, h3, ?_⟩
      exact ⟨hop.1, hop.2.1, hop.2.2.1, hop.2.2.2.1, hop.2.2.2.2⟩

/-- The first non-blank, non-heading line synthesizes the `OPENING`
scene. -/
lemma bodyStep_pre (line : List Char) (chars locs : List (List Char))
    (hnb : trim line ≠ []) (hnh : headingLike (trim line) = false) :
    openingInv (bodyStep ⟨[], none, chars, locs, 0⟩ line) := by
  have hie : (trim line).isEmpty = false := by
    cases hq : trim line with
    | nil => exact absurd hq hnb
    | cons a b => rfl
  simp only [bodyStep, hie, Bool.false_eq_true, if_false, hnh, ensureScene]
  obtain ⟨h1, h2, c', h3⟩ :=
    classifyBody_shape []
      ⟨1, "OPENING".toList, "UNKNOWN".toList, "DAY".toList, true, []⟩ chars locs 1
      (trim line)
  exact ⟨h1, _, h3, rfl, rfl, rfl, rfl, rfl⟩

/-- Folding non-heading lines preserves the `OPENING` invariant. -/
lemma foldl_opening_inv :
    ∀ (lines : List (List Char)) (st : FState),
      (∀ l ∈ lines, headingLike (trim l) = false) → openingInv st →
      openingInv (lines.foldl bodyStep st) := by
  intro lines
  induction lines with
  | nil => intro st _ h; exact h
  | cons l ls ih =>
    intro st hh hInv
    exact ih _ (fun x hx => hh x (List.mem_cons_of_mem l hx))
      (bodyStep_no_heading_inv st l (hh l (List.mem_cons_self l ls)) hInv)

/-- Folding non-heading lines from the initial state reaches the
`OPENING` invariant as soon as some line is non-blank. -/
lemma foldl_opening_from_init :
    ∀ (lines : List (List Char)) (chars locs : List (List Char)),
      (∀ l ∈ lines, headingLike (trim l) = false) →
      (∃ l ∈ lines, trim l ≠ []) →
      openingInv (lines.foldl bodyStep ⟨[], none, chars, locs, 0⟩) := by
  intro lines
  induction lines with
  | nil => intro chars locs _ hx; obtain ⟨l, hl, _⟩ := hx; exact absurd hl (List.not_mem_nil l)
  | cons l ls ih =>
    intro chars locs hh hx
    by_cases hb : trim l = []
    · rw [List.foldl_cons, bodyStep_blank _ l hb]
      refine ih chars locs (fun x hxm => hh x (List.mem_cons_of_mem l hxm)) ?_
      obtain ⟨y, hy, hyne⟩ := hx
      cases List.mem_cons.mp hy with
      | inl h => exact absurd (h ▸ hb) hyne
      | inr h => exact ⟨y, h, hyne⟩
    · rw [List.foldl_cons]
      exact foldl_opening_inv ls _ (fun x hxm => hh x (List.mem_cons_of_mem l hxm))
        (bodyStep_pre l chars locs hb (hh l (List.mem_cons_self l ls)))

/-- The title-page scan consumes exactly the first `50 - k` lines when no
line is heading-shaped. -/
lemma titleScan_no_heading :
    ∀ (lines : List (List Char)) (k : Nat) (tt : List Char)
      (aa : List (List Char)),
      (∀ l ∈ lines, (matchPrefixCI (trim l)).isSome = false) →
      (titleScan k lines tt aa).2.2 = lines.drop (50 - k) := by
  intro lines
  induction lines with
  | nil => intro k tt aa _; simp [titleScan]
  | cons l ls ih =>
    intro k tt aa hh
    by_cases hk : 50 ≤ k
    · have h0 : 50 - k = 0 := by omega
      simp [titleScan, hk, h0]
    · have hs : 50 - k = (50 - (k + 1)) + 1 := by omega
      have htail : ∀ x ∈ ls, (matchPrefixCI (trim x)).isSome = false :=
        fun x hx => hh x (List.mem_cons_of_mem l hx)
      have hhead := hh l (List.mem_cons_self l ls)
      rw [hs]
      simp only [titleScan, hk, if_false, List.drop_succ_cons]
      by_cases hb : (trim l).isEmpty
      · simp [hb, ih _ _ _ htail]
      · simp only [hb, Bool.false_eq_true, if_false]
        cases ht : titleMatch (trim l) with
        | some tt' => simp [ih _ _ _ htail]
        | none =>
          cases ha : authorMatch (trim l) with
          | some a => simp [ih _ _ _ htail]
          | none => simp [hhead, ih _ _ _ htail]

/-- Claim C2 (amended): a document with no scene-heading-shaped line
(neither a heading prefix nor a leading dot) and at least one non-blank
line at index 50 or beyond — the title-page scan consumes the first 50
lines — parses to exactly one scene: the synthesized `OPENING` scene
with location `UNKNOWN`, time of day `DAY` and interior set. -/
theorem C2_amended (text : List Char)
    (hnh : ∀ l ∈ splitNl text, headingLike (trim l) = false)
    (hnb : ∃ l ∈ (splitNl text).drop 50, trim l ≠ []) :
    ∃ content, (parseFountain text).scenes =
      [⟨1, "OPENING".toList, "UNKNOWN".toList, "DAY".toList, true, content⟩] := by
  have hpf : ∀ l ∈ splitNl text, (matchPrefixCI (trim l)).isSome = false := by
    intro l hl
    have := hnh l hl
    unfold headingLike at this
    exact (Bool.or_eq_false_iff.mp this).1
  have hrem := titleScan_no_heading (splitNl text) 0 [] [] hpf
  have hdroph : ∀ l ∈ (splitNl text).drop 50, headingLike (trim l) = false :=
    fun l hl => hnh l (List.drop_subset 50 (splitNl text) hl)
  have hInv :
      openingInv (((splitNl text).drop 50).foldl bodyStep ⟨[], none, [], [], 0⟩) :=
    foldl_opening_from_init _ [] [] hdroph hnb
  obtain ⟨hfin, sc, hcur, h1, h2, h3, h4, h5⟩ := hInv
  refine ⟨sc.content, ?_⟩
  show (parseFountain text).scenes = _
  unfold parseFountain
  dsimp only
  rw [hrem]
  unfold initFState
  simp only [Nat.sub_zero] at hfin hcur ⊢
  rw [hfin, hcur]
  cases sc with
  | mk a b c d e f =>
    simp only at h1 h2 h3 h4 h5
    subst h1 h2 h3 h4 h5
    rfl

/-- Input for the C2 witness: fifty blank lines followed by one plain
action line. -/
def c2Text : List Char :=
  "\n\n\n\n\n\n\n\n\n\n\n\n\n\n\n\n\n\n\n\n\n\n\n\n\n\n\n\n\n\n\n\n\n\n\n\n\n\n\n\n\n\n\n\n\n\n\n\n\n\nShe walks.".toList

/-- Witness for claim C2 (amended) at a concrete 51-line document. -/
theorem C2_amended_witness :
    ∃ content, (parseFountain c2Text).scenes =
      [⟨1, "OPENING".toList, "UNKNOWN".toList, "DAY".toList, true, content⟩] :=
  C2_amended c2Text (by decide) (by decide)

/-! Dialogue attribution (claim C6). -/

/-- Default element for index access. -/
def elemDefault : SceneElement := ⟨ElemType.action, [], none⟩

/-- Element of a content list at an index. -/
def elemAt (l : List SceneElement) (i : Nat) : SceneElement := l.getD i elemDefault

/-- Exact attribution invariant maintained by both parsers: every
dialogue element's character field equals the character field of the
most recent preceding character element (via `findLastP` over the prefix
before it), mirroring lines 146–147 and 228–229. -/
def attribExact (l : List SceneElement) : Prop :=
  ∀ j, j < l.length → (elemAt l j).type = ElemType.dialogue →
    (elemAt l j).character = (findLastP isCharElem (l.take j)).bind SceneElement.character

/-- The attribution property exactly as the claim states it: a dialogue
element with a present character field has an earlier character element
with that name, with no character element between them. -/
def claimAttrib (l : List SceneElement) : Prop :=
  ∀ j, j < l.length → ∀ c, (elemAt l j).type = ElemType.dialogue →
    (elemAt l j).character = some c →
    ∃ i, i < j ∧ (elemAt l i).type = ElemType.character ∧
      (elemAt l i).character = some c ∧
      ∀ k, i < k → k < j → (elemAt l k).type ≠ ElemType.character

/-- Index access below the taken length passes through `List.take`. -/
lemma getD_take {α : Type} (d : α) :
    ∀ (l : List α) (j i : Nat), i < j → (l.take j).getD i d = l.getD i d := by
  intro l
  induction l with
  | nil => intro j i _; simp
  | cons a r ih =>
    intro j i hij
    cases j with
    | zero => omega
    | succ j' =>
      cases i with
      | zero => rfl
      | succ i' => exact ih j' i' (by omega)

/-- The empty content satisfies exact attribution. -/
lemma attribExact_nil : attribExact [] := by
  intro j hj
  simp at hj

/-- Appending an element whose character field (when it is a dialogue)
was computed by `findLastP` over the existing content preserves exact
attribution. -/
lemma attribExact_append (l : List SceneElement) (e : SceneElement)
    (hl : attribExact l)
    (he : e.type = ElemType.dialogue →
      e.character = (findLastP isCharElem l).bind SceneElement.character) :
    attribExact (l ++ [e]) := by
  intro j hj hd
  rw [List.length_append, List.length_singleton] at hj
  by_cases hjl : j < l.length
  · have h1 : elemAt (l ++ [e]) j = elemAt l j := List.getD_append _ _ _ _ hjl
    have h2 : (l ++ [e]).take j = l.take j :=
      List.take_append_of_le_length (le_of_lt hjl)
    rw [h1] at hd ⊢
    rw [h2]
    exact hl j hjl hd
  · have hj' : j = l.length := by omega
    subst hj'
    have h1 : elemAt (l ++ [e]) l.length = e := by
      unfold elemAt
      rw [List.getD_append_right _ _ _ _ (le_refl _), Nat.sub_self]
      rfl
    have h2 : (l ++ [e]).take l.length = l := by
      rw [List.take_append_of_le_length (le_refl _), List.take_length]
    rw [h1] at hd ⊢
    rw [h2]
    exact he hd

/-- Replacing the final element by one of equal type and character field
preserves exact attribution (the dialogue merge changes the content text
only). -/
lemma attribExact_concat_congr (l : List SceneElement) (d d' : SceneElement)
    (h : attribExact (l ++ [d])) (ht : d'.type = d.type)
    (hch : d'.character = d.character) :
    attribExact (l ++ [d']) := by
  intro j hj hd
  rw [List.length_append, List.length_singleton] at hj
  have hj0 : j < (l ++ [d]).length := by
    rw [List.length_append, List.length_singleton]; omega
  by_cases hjl : j < l.length
  · have h1 : elemAt (l ++ [d']) j = elemAt l j := List.getD_append _ _ _ _ hjl
    have h1' : elemAt (l ++ [d]) j = elemAt l j := List.getD_append _ _ _ _ hjl
    have h2 : (l ++ [d']).take j = l.take j :=
      List.take_append_of_le_length (le_of_lt hjl)
    have h2' : (l ++ [d]).take j = l.take j :=
      List.take_append_of_le_length (le_of_lt hjl)
    rw [h1] at hd ⊢
    rw [h2]
    have := h j hj0
    rw [h1', h2'] at this
    exact this hd
  · have hj' : j = l.length := by omega
    subst hj'
    have h1 : elemAt (l ++ [d']) l.length = d' := by
      unfold elemAt
      rw [List.getD_append_right _ _ _ _ (le_refl _), Nat.sub_self]
      rfl
    have h1' : elemAt (l ++ [d]) l.length = d := by
      unfold elemAt
      rw [List.getD_append_right _ _ _ _ (le_refl _), Nat.sub_self]
      rfl
    have h2 : (l ++ [d']).take l.length = l := by
      rw [List.take_append_of_le_length (le_refl _), List.take_length]
    have h2' : (l ++ [d]).take l.length = l := by
      rw [List.take_append_of_le_length (le_refl _), List.take_length]
    rw [h1] at hd ⊢
    rw [h2, hch]
    have := h l.length hj0
    rw [h1', h2'] at this
    exact this (ht ▸ hd)

/-- A list with a known last element splits as a concatenation. -/
lemma exists_concat_of_getLastQ {α : Type} :
    ∀ (l : List α) (a : α), l.getLast? = some a → ∃ l', l = l' ++ [a]
  | [], a, h => by simp at h
  | [x], a, h => by
    simp only [List.getLast?_singleton, Option.some.injEq] at h
    exact ⟨[], by rw [h]; rfl⟩
  | x :: y :: r, a, h => by
    rw [List.getLast?_cons_cons] at h
    obtain ⟨l', hl⟩ := exists_concat_of_getLastQ (y :: r) a h
    exact ⟨x :: l', by rw [List.cons_append, ← hl]⟩

/-- When `findLastP` finds nothing, no element satisfies the predicate. -/
lemma findLastP_none {α : Type} (p : α → Bool) (d : α) :
    ∀ (l : List α), findLastP p l = none →
      ∀ k, k < l.length → p (l.getD k d) = false := by
  intro l
  induction l with
  | nil => intro _ k hk; simp at hk
  | cons a r ih =>
    intro h k hk
    unfold findLastP at h
    cases hr : findLastP p r with
    | some b => rw [hr] at h; simp at h
    | none =>
      rw [hr] at h
      by_cases hpa : p a
      · simp [hpa] at h
      · cases k with
        | zero =>
          show p a = false
          exact Bool.not_eq_true _ ▸ hpa
        | succ k' =>
          show p (r.getD k' d) = false
          exact ih hr k' (by simpa using hk)

/-- Position characterization of `findLastP`: the found element occurs at
an index after which no element satisfies the predicate. -/
lemma findLastP_spec {α : Type} (p : α → Bool) (d : α) :
    ∀ (l : List α) (e : α), findLastP p l = some e →
      ∃ i, i < l.length ∧ l.getD i d = e ∧ p e = true ∧
        ∀ k, i < k → k < l.length → p (l.getD k d) = false := by
  intro l
  induction l with
  | nil => intro e h; simp [findLastP] at h
  | cons a r ih =>
    intro e h
    unfold findLastP at h
    cases hr : findLastP p r with
    | some b =>
      rw [hr] at h
      have hb : b = e := by simpa using h
      subst hb
      obtain ⟨i, hi, hgd, hp, hafter⟩ := ih b hr
      refine ⟨i + 1, by simpa using Nat.succ_lt_succ hi, hgd, hp, ?_⟩
      intro k hk1 hk2
      cases k with
      | zero => omega
      | succ k' =>
        show p (r.getD k' d) = false
        exact hafter k' (by omega) (by simpa using hk2)
    | none =>
      rw [hr] at h
      by_cases hpa : p a
      · simp only [hpa, if_true, Option.some.injEq] at h
        subst h
        refine ⟨0, by simp, rfl, hpa, ?_⟩
        intro k hk1 hk2
        cases k with
        | zero => omega
        | succ k' =>
          show p (r.getD k' d) = false
          exact findLastP_none p d r hr k' (by simpa using hk2)
      · simp [hpa] at h

/-- Exact attribution implies the claim's attribution property. -/
lemma attribExact_claim (l : List SceneElement) (h : attribExact l) :
    claimAttrib l := by
  intro j hj c hd hc
  have hx := h j hj hd
  rw [hc] at hx
  cases hf : findLastP isCharElem (l.take j) with
  | none => rw [hf] at hx; simp at hx
  | some e =>
    rw [hf] at hx
    obtain ⟨i, hi, hgd, hp, hafter⟩ :=
      findLastP_spec isCharElem elemDefault (l.take j) e hf
    have hlen : (l.take j).length = j := by
      rw [List.length_take]; omega
    rw [hlen] at hi hafter
    have hgd' : elemAt l i = e := by
      unfold elemAt
      rw [← getD_take elemDefault l j i hi]
      exact hgd
    refine ⟨i, hi, ?_, ?_, ?_⟩
    · rw [hgd']
      simpa [isCharElem] using hp
    · rw [hgd']
      simpa using hx.symm
    · intro k hk1 hk2
      have hk := hafter k hk1 hk2
      rw [getD_take elemDefault l j k hk2] at hk
      simp only [isCharElem, decide_eq_false_iff_not] at hk
      exact hk

/-- Attribution invariant over the whole parser state. -/
def stateAttrib (st : FState) : Prop :=
  (∀ sc ∈ st.finished, attribExact sc.content) ∧
    ∀ sc, st.current = some sc → attribExact sc.content

/-- Classifying one body line preserves the attribution invariant. -/
lemma classifyBody_attrib (fin : List ParsedScene) (sc : ParsedScene)
    (chars locs : List (List Char)) (n : Nat) (t : List Char)
    (hfin : ∀ s ∈ fin, attribExact s.content) (hcur : attribExact sc.content) :
    stateAttrib (classifyBody ⟨fin, some sc, chars, locs, n⟩ t) := by
  unfold classifyBody
  dsimp only
  split
  · refine ⟨hfin, fun s hs => ?_⟩
    simp only [Option.some.injEq] at hs
    subst hs
    exact attribExact_append _ _ hcur (by intro h; simp at h)
  · split
    · refine ⟨hfin, fun s hs => ?_⟩
      simp only [Option.some.injEq] at hs
      subst hs
      exact attribExact_append _ _ hcur (by intro h; simp at h)
    · split
      · refine ⟨hfin, fun s hs => ?_⟩
        simp only [Option.some.injEq] at hs
        subst hs
        exact attribExact_append _ _ hcur (by intro h; simp at h)
      · split
        · split
          · next le hlast hdia =>
            refine ⟨hfin, fun s hs => ?_⟩
            simp only [Option.some.injEq] at hs
            subst hs
            obtain ⟨init, hinit⟩ := exists_concat_of_getLastQ sc.content le hlast
            show attribExact (updateLast _ sc.content)
            rw [hinit, updateLast_concat]
            exact attribExact_concat_congr init le _ (hinit ▸ hcur) rfl rfl
          · split
            · refine ⟨hfin, fun s hs => ?_⟩
              simp only [Option.some.injEq] at hs
              subst hs
              exact attribExact_append _ _ hcur (fun _ => rfl)
            · refine ⟨hfin, fun s hs => ?_⟩
              simp only [Option.some.injEq] at hs
              subst hs
              exact attribExact_append _ _ hcur (by intro h; simp at h)
        · refine ⟨hfin, fun s hs => ?_⟩
          simp only [Option.some.injEq] at hs
          subst hs
          exact attribExact_append _ _ hcur (by intro h; simp at h)

/-- One body-scan step preserves the attribution invariant. -/
lemma bodyStep_attrib (st : FState) (line : List Char) (h : stateAttrib st) :
    stateAttrib (bodyStep st line) := by
  obtain ⟨hfin, hcur⟩ := h
  cases st with
  | mk fin cur chars locs n =>
    simp only at hfin hcur
    unfold bodyStep
    dsimp only
    split
    · exact ⟨hfin, hcur⟩
    · split
      · refine ⟨?_, fun s hs => ?_⟩
        · intro s hs
          rcases List.mem_append.mp hs with h1 | h2
          · exact hfin s h1
          · cases cur with
            | none => simp at h2
            | some c =>
              simp only [Option.toList_some, List.mem_singleton] at h2
              subst h2
              exact hcur _ rfl
        · simp only [Option.some.injEq] at hs
          subst hs
          exact attribExact_nil
      · cases cur with
        | some c =>
          exact classifyBody_attrib fin c chars locs n _ hfin (hcur c rfl)
        | none =>
          exact classifyBody_attrib fin _ chars locs (n + 1) _ hfin attribExact_nil

/-- One FDX paragraph step preserves the attribution invariant. -/
lemma fdxStep_attrib (st : FState) (p : FDXParagraph) (h : stateAttrib st) :
    stateAttrib (fdxStep st p) := by
  obtain ⟨hfin, hcur⟩ := h
  cases st with
  | mk fin cur chars locs n =>
    simp only at hfin hcur
    unfold fdxStep
    dsimp only
    split
    · exact ⟨hfin, hcur⟩
    · split
      · refine ⟨?_, fun s hs => ?_⟩
        · intro s hs
          rcases List.mem_append.mp hs with h1 | h2
          · exact hfin s h1
          · cases cur with
            | none => simp at h2
            | some c =>
              simp only [Option.toList_some, List.mem_singleton] at h2
              subst h2
              exact hcur _ rfl
        · simp only [Option.some.injEq] at hs
          subst hs
          exact attribExact_nil
      · have hmain :
            ∀ (fin' : List ParsedScene) (sc : ParsedScene)
              (chars' locs' : List (List Char)) (n' : Nat),
              (∀ s ∈ fin', attribExact s.content) → attribExact sc.content →
              stateAttrib (fdxClassify ⟨fin', some sc, chars', locs', n'⟩
                ((p.type.map toLower).getD []) ((p.text.map trim).getD [])) := by
          intro fin' sc chars' locs' n' hf hc
          unfold fdxClassify
          dsimp only
          split
          · refine ⟨hf, fun s hs => ?_⟩
            simp only [Option.some.injEq] at hs
            subst hs
            exact attribExact_append _ _ hc (by intro hh; simp at hh)
          · split
            · refine ⟨hf, fun s hs => ?_⟩
              simp only [Option.some.injEq] at hs
              subst hs
              exact attribExact_append _ _ hc (fun _ => rfl)
            · split
              · refine ⟨hf, fun s hs => ?_⟩
                simp only [Option.some.injEq] at hs
                subst hs
                exact attribExact_append _ _ hc (by intro hh; simp at hh)
              · split
                · refine ⟨hf, fun s hs => ?_⟩
                  simp only [Option.some.injEq] at hs
                  subst hs
                  exact attribExact_append _ _ hc (by intro hh; simp at hh)
                · refine ⟨hf, fun s hs => ?_⟩
                  simp only [Option.some.injEq] at hs
                  subst hs
                  exact attribExact_append _ _ hc (by intro hh; simp at hh)
        cases cur with
        | some c => exact hmain fin c chars locs n hfin (hcur c rfl)
        | none => exact hmain fin _ chars locs (n + 1) hfin attribExact_nil

/-- The initial state satisfies the attribution invariant. -/
lemma initFState_attrib : stateAttrib initFState := by
  constructor
  · intro s hs; simp [initFState] at hs
  · intro s hs; simp [initFState] at hs

/-- Folding body lines preserves the attribution invariant. -/
lemma foldl_bodyStep_attrib :
    ∀ (lines : List (List Char)) (st : FState), stateAttrib st →
      stateAttrib (lines.foldl bodyStep st) := by
  intro lines
  induction lines with
  | nil => intro st h; exact h
  | cons l ls ih => intro st h; exact ih _ (bodyStep_attrib st l h)

/-- Folding FDX paragraphs preserves the attribution invariant. -/
lemma foldl_fdxStep_attrib :
    ∀ (ps : List FDXParagraph) (st : FState), stateAttrib st →
      stateAttrib (ps.foldl fdxStep st) := by
  intro ps
  induction ps with
  | nil => intro st h; exact h
  | cons p rest ih => intro p' h; exact ih _ (fdxStep_attrib p' p h)

/-- Scenes assembled from an invariant-satisfying state all satisfy
exact attribution. -/
lemma scenes_attrib (st : FState) (h : stateAttrib st) :
    ∀ sc ∈ st.finished ++ st.current.toList, attribExact sc.content := by
  intro sc hsc
  rcases List.mem_append.mp hsc with h1 | h2
  · exact h.1 sc h1
  · cases hc : st.current with
    | none => rw [hc] at h2; simp at h2
    | some c =>
      rw [hc] at h2
      simp only [Option.toList_some, List.mem_singleton] at h2
      subst h2
      exact h.2 _ hc

/-- Claim C6: in every document produced by either parser, every dialogue
element with a present character field is attributed to the most recent
preceding character element of the same scene: that element exists, bears
the same name, and no character element lies between the two. -/
theorem C6_dialogue_attribution :
    (∀ (text : List Char), ∀ sc ∈ (parseFountain text).scenes, claimAttrib sc.content) ∧
      ∀ (dom : FDXDom), ∀ sc ∈ (parseFDX dom).scenes, claimAttrib sc.content := by
  constructor
  · intro text sc hsc
    refine attribExact_claim _ ?_
    have h := foldl_bodyStep_attrib ((titleScan 0 (splitNl text) [] []).2.2)
      initFState initFState_attrib
    exact scenes_attrib _ h sc hsc
  · intro dom sc hsc
    refine attribExact_claim _ ?_
    have h := foldl_fdxStep_attrib dom.paragraphs initFState initFState_attrib
    exact scenes_attrib _ h sc hsc

/-- Content of the scene used by the C6 witness. -/
def w6Content : List SceneElement :=
  [⟨ElemType.character, "JOE".toList, some "JOE".toList⟩,
   ⟨ElemType.dialogue, "Hi.".toList, some "JOE".toList⟩]

/-- Witness for claim C6 at a concrete parse: in
`INT. A - DAY` / `JOE` / `Hi.` the dialogue at index 1 is attributed to
the character element at index 0. -/
theorem C6_dialogue_attribution_witness :
    ∃ i, i < 1 ∧ (elemAt w6Content i).type = ElemType.character ∧
      (elemAt w6Content i).character = some "JOE".toList ∧
      ∀ k, i < k → k < 1 → (elemAt w6Content k).type ≠ ElemType.character := by
  have hmem :
      (⟨1, "INT. A - DAY".toList, "A".toList, "DAY".toList, true, w6Content⟩ :
          ParsedScene) ∈
        (parseFountain "INT. A - DAY\nJOE\nHi.".toList).scenes := by decide
  exact C6_dialogue_attribution.1 "INT. A - DAY\nJOE\nHi.".toList _ hmem 1 (by decide)
    "JOE".toList (by decide) (by decide)

/-! Character and location set consistency (claim C5). -/

/-- Names of the character-kind elements of a content list, in order. -/
def charElemNames (l : List SceneElement) : List (List Char) :=
  l.filterMap fun e => if e.type = ElemType.character then e.character else none

/-- Names of the character-kind elements across a scene list. -/
def docCharNames (scenes : List ParsedScene) : List (List Char) :=
  (scenes.map fun sc => charElemNames sc.content).flatten

/-- A scene carrying the synthesized `OPENING` metadata.  No scene built
from a heading line can carry it: a heading whose text were literally
`OPENING` would fail the interior test, while the synthesized scene has
`interior = true`. -/
def isSynthScene (sc : ParsedScene) : Bool :=
  sc.heading = "OPENING".toList && sc.location = "UNKNOWN".toList && sc.interior

/-- Uppercased locations of the non-synthesized scenes, in order. -/
def docLocs (scenes : List ParsedScene) : List (List Char) :=
  scenes.filterMap fun sc =>
    if isSynthScene sc then none else some (toUpper sc.location)

/-- Every entry of the list is fixed under uppercasing. -/
def upperFixed (l : List (List Char)) : Prop := ∀ s ∈ l, toUpper s = s

/-- Case-insensitive de-duplication: no two entries share an uppercased
form. -/
def ciNodup (l : List (List Char)) : Prop :=
  l.Pairwise fun a b => toUpper a ≠ toUpper b

/-- Membership after a set insertion. -/
lemma mem_addSet (l : List (List Char)) (a b : List Char) :
    a ∈ addSet l b ↔ a ∈ l ∨ a = b := by
  unfold addSet
  split
  · next h => exact ⟨Or.inl, fun h2 => h2.elim id (fun he => he ▸ h)⟩
  · simp

/-- Membership in the set fold. -/
lemma mem_foldl_addSet :
    ∀ (l : List (List Char)) (acc : List (List Char)) (a : List Char),
      a ∈ l.foldl addSet acc ↔ a ∈ acc ∨ a ∈ l := by
  intro l
  induction l with
  | nil => intro acc a; simp
  | cons x xs ih =>
    intro acc a
    rw [List.foldl_cons, ih, mem_addSet, List.mem_cons]
    tauto

/-- De-duplication keeps exactly the original members. -/
lemma mem_dedupFirst (l : List (List Char)) (a : List Char) :
    a ∈ dedupFirst l ↔ a ∈ l := by
  unfold dedupFirst
  rw [mem_foldl_addSet]
  simp

/-- A set insertion preserves duplicate-freedom. -/
lemma nodup_addSet (l : List (List Char)) (b : List Char) (h : l.Nodup) :
    (addSet l b).Nodup := by
  unfold addSet
  split
  · exact h
  · next hb =>
    rw [List.nodup_append]
    exact ⟨h, List.nodup_singleton b, by simpa using hb⟩

/-- The set fold preserves duplicate-freedom. -/
lemma nodup_foldl_addSet :
    ∀ (l : List (List Char)) (acc : List (List Char)), acc.Nodup →
      (l.foldl addSet acc).Nodup := by
  intro l
  induction l with
  | nil => intro acc h; exact h
  | cons x xs ih => intro acc h; exact ih _ (nodup_addSet acc x h)

/-- De-duplicated lists are duplicate-free. -/
lemma nodup_dedupFirst (l : List (List Char)) : (dedupFirst l).Nodup :=
  nodup_foldl_addSet l [] List.nodup_nil

/-- De-duplication of an extension by one entry. -/
lemma dedupFirst_concat (l : List (List Char)) (a : List Char) :
    dedupFirst (l ++ [a]) = addSet (dedupFirst l) a := by
  unfold dedupFirst
  rw [List.foldl_append]
  rfl

/-- Set insertion of an uppercase-fixed entry keeps the list
uppercase-fixed. -/
lemma upperFixed_addSet (l : List (List Char)) (a : List Char)
    (hl : upperFixed l) (ha : toUpper a = a) : upperFixed (addSet l a) := by
  intro s hs
  rcases (mem_addSet l s a).mp hs with h | h
  · exact hl s h
  · exact h ▸ ha

/-- Duplicate-freedom plus uppercase-fixedness give case-insensitive
duplicate-freedom. -/
lemma ciNodup_of_upperFixed (l : List (List Char)) (hn : l.Nodup)
    (hf : upperFixed l) : ciNodup l := by
  refine List.Pairwise.imp_of_mem ?_ hn
  intro a b ha hb hne
  rw [hf a ha, hf b hb]
  exact hne

/-- Round trip through `Char.ofNat` for uppercase letter codes. -/
lemma charOfNat_toNat (n : Nat) (h1 : 65 ≤ n) (h2 : n ≤ 90) :
    (Char.ofNat n).toNat = n := by
  have hv : n.isValidChar := Or.inl (by omega)
  simp only [Char.ofNat, hv, dif_pos, Char.ofNatAux, Char.toNat]
  simp [UInt32.toNat]

/-- Uppercasing a character twice is the same as uppercasing it once. -/
lemma charToUpper_idem (c : Char) : c.toUpper.toUpper = c.toUpper := by
  by_cases h : c.toNat ≥ 97 ∧ c.toNat ≤ 122
  · have h1 : c.toUpper = Char.ofNat (c.toNat - 32) := by
      unfold Char.toUpper
      rw [if_pos h]
    have ht : (Char.ofNat (c.toNat - 32)).toNat = c.toNat - 32 :=
      charOfNat_toNat (c.toNat - 32) (by omega) (by omega)
    rw [h1]
    unfold Char.toUpper
    rw [if_neg (by rw [ht]; omega)]
  · have h1 : c.toUpper = c := by
      unfold Char.toUpper
      rw [if_neg h]
    rw [h1, h1]

/-- Uppercasing a string twice is the same as uppercasing it once. -/
lemma toUpper_idem (l : List Char) : toUpper (toUpper l) = toUpper l := by
  unfold toUpper
  rw [List.map_map]
  exact List.map_congr_left fun c _ => charToUpper_idem c

/-- Characters of the cue class are fixed under uppercasing. -/
lemma charUpper_fixed_of_class (c : Char) (h : isCueClass c = true) :
    c.toUpper = c := by
  simp only [isCueClass, Bool.or_eq_true] at h
  rcases h with (((h | h) | h) | h) | h
  · simp only [isUpperAZ, Bool.and_eq_true, decide_eq_true_eq] at h
    obtain ⟨h1, h2⟩ := h
    have hv : c.toNat ≤ 90 := by
      have := Char.le_def.mp h2
      simpa [Char.toNat] using this
    unfold Char.toUpper
    rw [if_neg (by omega)]
  · simp only [isWs, Char.isWhitespace, Bool.or_eq_true, decide_eq_true_eq] at h
    rcases h with ((h | h) | h) | h <;> subst h <;> decide
  · have : c = '.' := by simpa using h
    subst this; decide
  · have : c = '-' := by simpa using h
    subst this; decide
  · have : c = '\'' := by simpa using h
    subst this; decide

/-- A string of cue-class characters is fixed under uppercasing. -/
lemma toUpper_fixed_of_class (l : List Char)
    (h : ∀ c ∈ l, isCueClass c = true) : toUpper l = l := by
  unfold toUpper
  have : ∀ c ∈ l, c.toUpper = c := fun c hc => charUpper_fixed_of_class c (h c hc)
  calc l.map Char.toUpper = l.map id := List.map_congr_left fun c hc => this c hc
  _ = l := List.map_id l

/-- Membership survives `dropWhile`. -/
lemma mem_of_mem_dropWhile {α : Type} (p : α → Bool) :
    ∀ (l : List α) (x : α), x ∈ l.dropWhile p → x ∈ l := by
  intro l
  induction l with
  | nil => intro x h; simp at h
  | cons a r ih =>
    intro x h
    rw [List.dropWhile_cons] at h
    split at h
    · exact List.mem_cons_of_mem a (ih x h)
    · exact h

/-- Membership survives trimming. -/
lemma mem_of_mem_trim (l : List Char) (x : Char) (h : x ∈ trim l) : x ∈ l := by
  unfold trim trimL trimR at h
  have h1 := mem_of_mem_dropWhile isWs _ x h
  rw [List.mem_reverse] at h1
  have h2 := mem_of_mem_dropWhile isWs _ x h1
  rw [List.mem_reverse] at h2
  exact h2

/-- Elements taken below the `takeWhile` length satisfy the predicate. -/
lemma take_le_takeWhile_class {α : Type} (p : α → Bool) :
    ∀ (l : List α) (k : Nat), k ≤ (l.takeWhile p).length →
      ∀ x ∈ l.take k, p x = true := by
  intro l
  induction l with
  | nil => intro k _ x hx; simp at hx
  | cons a r ih =>
    intro k hk x hx
    rw [List.takeWhile_cons] at hk
    by_cases hpa : p a
    · rw [if_pos hpa] at hk
      cases k with
      | zero => simp at hx
      | succ k' =>
        rw [List.take_succ_cons] at hx
        rcases List.mem_cons.mp hx with h | h
        · exact h ▸ hpa
        · exact ih k' (by simpa using hk) x h
    · rw [if_neg hpa] at hk
      simp at hk
      subst hk
      simp at hx

/-- Every character of a captured cue name belongs to the cue class. -/
lemma cueTry_class :
    ∀ (j : Nat) (c : Char) (rest ch : List Char),
      j ≤ (rest.takeWhile isCueClass).length → isUpperAZ c = true →
      cueTry c rest j = some ch → ∀ x ∈ ch, isCueClass x = true := by
  intro j
  induction j with
  | zero => intro c rest ch _ _ h; simp [cueTry] at h
  | succ j' ih =>
    intro c rest ch hj hc h
    unfold cueTry at h
    split at h
    · have hch : ch = trim (c :: rest.take (j' + 1)) := by
        simpa using h.symm
      subst hch
      intro x hx
      have hx' := mem_of_mem_trim _ x hx
      rcases List.mem_cons.mp hx' with hh | hh
      · subst hh
        simp [isCueClass, hc]
      · exact take_le_takeWhile_class isCueClass rest (j' + 1) hj x hh
    · exact ih c rest ch (by omega) hc h

/-- An accepted cue passed through the cue regex. -/
lemma cueAccept_match (t ch : List Char) (h : cueAccept t = some ch) :
    cueMatch t = some ch := by
  unfold cueAccept at h
  cases hm : cueMatch t with
  | none => rw [hm] at h; simp at h
  | some ch' =>
    rw [hm] at h
    rw [Option.ite_none_right_eq_some] at h
    rw [← h.2]

/-- Accepted cue names are fixed under uppercasing. -/
lemma cueAccept_upperFixed (t ch : List Char) (h : cueAccept t = some ch) :
    toUpper ch = ch := by
  have hm := cueAccept_match t ch h
  cases t with
  | nil => simp [cueMatch] at hm
  | cons c rest =>
    rw [show cueMatch (c :: rest) =
        (if isUpperAZ c then cueTry c rest (rest.takeWhile isCueClass).length
         else none) from rfl] at hm
    split at hm
    · next hc =>
      exact toUpper_fixed_of_class ch
        (cueTry_class _ c rest ch (le_refl _) hc hm)
    · simp at hm

/-- Character names of scenes extended by one scene. -/
lemma docCharNames_concat (xs : List ParsedScene) (sc : ParsedScene) :
    docCharNames (xs ++ [sc]) = docCharNames xs ++ charElemNames sc.content := by
  unfold docCharNames
  rw [List.map_append, List.flatten_append]
  simp

/-- Locations of scenes extended by one scene. -/
lemma docLocs_concat (xs : List ParsedScene) (sc : ParsedScene) :
    docLocs (xs ++ [sc]) =
      docLocs xs ++ (if isSynthScene sc then [] else [toUpper sc.location]) := by
  unfold docLocs
  rw [List.filterMap_append]
  congr 1
  simp only [List.filterMap_cons, List.filterMap_nil]
  split <;> simp_all

/-- Character names of a content list extended by a character element. -/
lemma charElemNames_concat_char (l : List SceneElement) (e : SceneElement)
    (h : e.type = ElemType.character) :
    charElemNames (l ++ [e]) = charElemNames l ++ e.character.toList := by
  unfold charElemNames
  rw [List.filterMap_append]
  congr 1
  simp only [List.filterMap_cons, List.filterMap_nil, if_pos h]
  cases e.character <;> rfl

/-- Character names of a content list extended by a non-character
element. -/
lemma charElemNames_concat_other (l : List SceneElement) (e : SceneElement)
    (h : ¬e.type = ElemType.character) :
    charElemNames (l ++ [e]) = charElemNames l := by
  unfold charElemNames
  rw [List.filterMap_append]
  simp [h]

/-- Set-consistency invariant over the parser state. -/
def setsInv (st : FState) : Prop :=
  st.characters = dedupFirst (docCharNames (st.finished ++ st.current.toList)) ∧
    st.locations = dedupFirst (docLocs (st.finished ++ st.current.toList))

/-- A scene built from a heading line never carries the synthesized
marker: were its heading literally `OPENING`, the interior test on that
text would be false. -/
lemma heading_scene_not_synth (sn : Nat) (t loc tod : List Char) :
    isSynthScene ⟨sn, t, loc, tod, isIntTest t, []⟩ = false := by
  unfold isSynthScene
  simp only
  by_cases ht : t = "OPENING".toList
  · subst ht
    have hint : isIntTest "OPENING".toList = false := by decide
    rw [hint, Bool.and_false]
  · rw [decide_eq_false ht, Bool.false_and, Bool.false_and]

/-- The synthesized `OPENING` scene carries the marker. -/
lemma opening_synth (sn : Nat) :
    isSynthScene
      ⟨sn, "OPENING".toList, "UNKNOWN".toList, "DAY".toList, true, []⟩ = true := rfl

/-- Changing only a scene's content leaves the collected locations
unchanged. -/
lemma docLocs_content (fin : List ParsedScene) (sc : ParsedScene)
    (c' : List SceneElement) :
    docLocs (fin ++ [{ sc with content := c' }]) = docLocs (fin ++ [sc]) := by
  rw [docLocs_concat, docLocs_concat]
  rfl

/-- Every `classifyBody` branch preserves the set invariant. -/
lemma classifyBody_sets (fin : List ParsedScene) (sc : ParsedScene)
    (chars locs : List (List Char)) (n : Nat) (t : List Char)
    (h : setsInv ⟨fin, some sc, chars, locs, n⟩) :
    setsInv (classifyBody ⟨fin, some sc, chars, locs, n⟩ t) := by
  obtain ⟨h1, h2⟩ := h
  simp only [Option.toList_some] at h1 h2
  have hother : ∀ (e : SceneElement), ¬e.type = ElemType.character →
      setsInv ⟨fin, some { sc with content := sc.content ++ [e] }, chars, locs, n⟩ := by
    intro e he
    constructor
    · simp only [Option.toList_some]
      rw [docCharNames_concat]
      show chars = dedupFirst (docCharNames fin ++ charElemNames (sc.content ++ [e]))
      rw [charElemNames_concat_other _ _ he, ← docCharNames_concat]
      exact h1
    · simp only [Option.toList_some]
      rw [docLocs_content]
      exact h2
  unfold classifyBody
  dsimp only
  split
  · next ch hcue =>
    constructor
    · simp only [Option.toList_some]
      rw [docCharNames_concat]
      show addSet chars ch =
        dedupFirst (docCharNames fin ++
          charElemNames (sc.content ++ [⟨ElemType.character, ch, some ch⟩]))
      rw [charElemNames_concat_char _ _ rfl]
      show addSet chars ch =
        dedupFirst (docCharNames fin ++ (charElemNames sc.content ++ [ch]))
      rw [← List.append_assoc, dedupFirst_concat, ← docCharNames_concat, ← h1]
    · simp only [Option.toList_some]
      rw [docLocs_content]
      exact h2
  · split
    · exact hother _ (by simp)
    · split
      · exact hother _ (by simp)
      · split
        · split
          · next le hlast hdia =>
            obtain ⟨init, hinit⟩ := exists_concat_of_getLastQ sc.content le hlast
            have hle : ¬le.type = ElemType.character := by rw [hdia]; decide
            have hce : charElemNames sc.content = charElemNames init := by
              rw [hinit, charElemNames_concat_other init le hle]
            have hup : charElemNames (updateLast
                (fun d => { d with content := d.content ++ ' ' :: t }) sc.content) =
                charElemNames init := by
              rw [hinit, updateLast_concat]
              exact charElemNames_concat_other init _ hle
            constructor
            · simp only [Option.toList_some]
              rw [docCharNames_concat]
              show chars = dedupFirst (docCharNames fin ++
                charElemNames (updateLast
                  (fun d => { d with content := d.content ++ ' ' :: t }) sc.content))
              rw [hup, ← hce, ← docCharNames_concat]
              exact h1
            · simp only [Option.toList_some]
              rw [docLocs_content]
              exact h2
          · split
            · exact hother _ (by simp)
            · exact hother _ (by simp)
        · exact hother _ (by simp)

/-- One body-scan step preserves the set invariant. -/
lemma bodyStep_sets (st : FState) (line : List Char) (h : setsInv st) :
    setsInv (bodyStep st line) := by
  obtain ⟨h1, h2⟩ := h
  cases st with
  | mk fin cur chars locs n =>
    simp only at h1 h2
    unfold bodyStep
    dsimp only
    split
    · exact ⟨h1, h2⟩
    · split
      · constructor
        · simp only [Option.toList_some]
          rw [docCharNames_concat]
          show chars = dedupFirst (docCharNames (fin ++ cur.toList) ++ charElemNames [])
          rw [show charElemNames [] = [] from rfl, List.append_nil]
          exact h1
        · simp only [Option.toList_some]
          rw [docLocs_concat, heading_scene_not_synth]
          show addSet locs (toUpper (headingLoc (trim line)).1) =
            dedupFirst (docLocs (fin ++ cur.toList) ++
              [toUpper (headingLoc (trim line)).1])
          rw [dedupFirst_concat, ← h2]
      · cases cur with
        | some c => exact classifyBody_sets fin c chars locs n _ ⟨h1, h2⟩
        | none =>
          have h1' : chars = dedupFirst (docCharNames (fin ++ [⟨n + 1,
              "OPENING".toList, "UNKNOWN".toList, "DAY".toList, true, []⟩])) := by
            rw [docCharNames_concat]
            rw [show charElemNames [] = [] from rfl, List.append_nil]
            simpa using h1
          have h2' : locs = dedupFirst (docLocs (fin ++ [⟨n + 1,
              "OPENING".toList, "UNKNOWN".toList, "DAY".toList, true, []⟩])) := by
            rw [docLocs_concat, opening_synth]
            simpa using h2
          exact classifyBody_sets fin _ chars locs (n + 1) _ ⟨h1', h2'⟩

/-- Every `fdxClassify` branch preserves the set invariant. -/
lemma fdxClassify_sets (fin : List ParsedScene) (sc : ParsedScene)
    (chars locs : List (List Char)) (n : Nat) (ty txt : List Char)
    (h : setsInv ⟨fin, some sc, chars, locs, n⟩) :
    setsInv (fdxClassify ⟨fin, some sc, chars, locs, n⟩ ty txt) := by
  obtain ⟨h1, h2⟩ := h
  simp only [Option.toList_some] at h1 h2
  have hother : ∀ (e : SceneElement), ¬e.type = ElemType.character →
      setsInv ⟨fin, some { sc with content := sc.content ++ [e] }, chars, locs, n⟩ := by
    intro e he
    constructor
    · simp only [Option.toList_some]
      rw [docCharNames_concat]
      show chars = dedupFirst (docCharNames fin ++ charElemNames (sc.content ++ [e]))
      rw [charElemNames_concat_other _ _ he, ← docCharNames_concat]
      exact h1
    · simp only [Option.toList_some]
      rw [docLocs_content]
      exact h2
  unfold fdxClassify
  dsimp only
  split
  · constructor
    · simp only [Option.toList_some]
      rw [docCharNames_concat]
      show addSet chars (trim (stripTrailingParen txt)) =
        dedupFirst (docCharNames fin ++
          charElemNames (sc.content ++
            [⟨ElemType.character, txt, some (trim (stripTrailingParen txt))⟩]))
      rw [charElemNames_concat_char _ _ rfl]
      show addSet chars (trim (stripTrailingParen txt)) =
        dedupFirst (docCharNames fin ++
          (charElemNames sc.content ++ [trim (stripTrailingParen txt)]))
      rw [← List.append_assoc, dedupFirst_concat, ← docCharNames_concat, ← h1]
    · simp only [Option.toList_some]
      rw [docLocs_content]
      exact h2
  · split
    · exact hother _ (by simp)
    · split
      · exact hother _ (by simp)
      · split
        · exact hother _ (by simp)
        · exact hother _ (by simp)

/-- One FDX paragraph step preserves the set invariant. -/
lemma fdxStep_sets (st : FState) (p : FDXParagraph) (h : setsInv st) :
    setsInv (fdxStep st p) := by
  obtain ⟨h1, h2⟩ := h
  cases st with
  | mk fin cur chars locs n =>
    simp only at h1 h2
    unfold fdxStep
    dsimp only
    split
    · exact ⟨h1, h2⟩
    · split
      · constructor
        · simp only [Option.toList_some]
          rw [docCharNames_concat]
          show chars = dedupFirst (docCharNames (fin ++ cur.toList) ++ charElemNames [])
          rw [show charElemNames [] = [] from rfl, List.append_nil]
          exact h1
        · simp only [Option.toList_some]
          rw [docLocs_concat, heading_scene_not_synth]
          show addSet locs (toUpper (headingLoc ((p.text.map trim).getD [])).1) =
            dedupFirst (docLocs (fin ++ cur.toList) ++
              [toUpper (headingLoc ((p.text.map trim).getD [])).1])
          rw [dedupFirst_concat, ← h2]
      · cases cur with
        | some c => exact fdxClassify_sets fin c chars locs n _ _ ⟨h1, h2⟩
        | none =>
          have h1' : chars = dedupFirst (docCharNames (fin ++ [⟨n + 1,
              "OPENING".toList, "UNKNOWN".toList, "DAY".toList, true, []⟩])) := by
            rw [docCharNames_concat]
            rw [show charElemNames [] = [] from rfl, List.append_nil]
            simpa using h1
          have h2' : locs = dedupFirst (docLocs (fin ++ [⟨n + 1,
              "OPENING".toList, "UNKNOWN".toList, "DAY".toList, true, []⟩])) := by
            rw [docLocs_concat, opening_synth]
            simpa using h2
          exact fdxClassify_sets fin _ chars locs (n + 1) _ _ ⟨h1', h2'⟩

/-- `classifyBody` never touches the locations set, and extends the
character set only by an accepted, uppercase-fixed cue name. -/
lemma classifyBody_upper (fin : List ParsedScene) (sc : ParsedScene)
    (chars locs : List (List Char)) (n : Nat) (t : List Char)
    (hc : upperFixed chars) :
    upperFixed (classifyBody ⟨fin, some sc, chars, locs, n⟩ t).characters ∧
      (classifyBody ⟨fin, some sc, chars, locs, n⟩ t).locations = locs := by
  unfold classifyBody
  dsimp only
  split
  · next ch hcue =>
    exact ⟨upperFixed_addSet _ _ hc (cueAccept_upperFixed t ch hcue), rfl⟩
  · split
    · exact ⟨hc, rfl⟩
    · split
      · exact ⟨hc, rfl⟩
      · split
        · split
          · exact ⟨hc, rfl⟩
          · split
            · exact ⟨hc, rfl⟩
            · exact ⟨hc, rfl⟩
        · exact ⟨hc, rfl⟩

/-- One body-scan step preserves uppercase-fixedness of both sets. -/
lemma bodyStep_upper (st : FState) (line : List Char)
    (hc : upperFixed st.characters) (hl : upperFixed st.locations) :
    upperFixed (bodyStep st line).characters ∧
      upperFixed (bodyStep st line).locations := by
  cases st with
  | mk fin cur chars locs n =>
    simp only at hc hl
    unfold bodyStep
    dsimp only
    split
    · exact ⟨hc, hl⟩
    · split
      · exact ⟨hc, upperFixed_addSet _ _ hl (toUpper_idem _)⟩
      · cases cur with
        | some c =>
          obtain ⟨h1, h2⟩ := classifyBody_upper fin c chars locs n (trim line) hc
          refine ⟨h1, ?_⟩
          show upperFixed
            (classifyBody ⟨fin, some c, chars, locs, n⟩ (trim line)).locations
          rw [h2]
          exact hl
        | none =>
          obtain ⟨h1, h2⟩ := classifyBody_upper fin
            ⟨n + 1, "OPENING".toList, "UNKNOWN".toList, "DAY".toList, true, []⟩
            chars locs (n + 1) (trim line) hc
          refine ⟨h1, ?_⟩
          show upperFixed
            (classifyBody ⟨fin, some ⟨n + 1, "OPENING".toList, "UNKNOWN".toList,
              "DAY".toList, true, []⟩, chars, locs, n + 1⟩ (trim line)).locations
          rw [h2]
          exact hl

/-- `fdxClassify` never touches the locations set. -/
lemma fdxClassify_locs (fin : List ParsedScene) (sc : ParsedScene)
    (chars locs : List (List Char)) (n : Nat) (ty txt : List Char) :
    (fdxClassify ⟨fin, some sc, chars, locs, n⟩ ty txt).locations = locs := by
  unfold fdxClassify
  dsimp only
  split
  · rfl
  · split
    · rfl
    · split
      · rfl
      · split
        · rfl
        · rfl

/-- One FDX paragraph step preserves uppercase-fixedness of the
locations. -/
lemma fdxStep_upperLocs (st : FState) (p : FDXParagraph)
    (hl : upperFixed st.locations) : upperFixed (fdxStep st p).locations := by
  cases st with
  | mk fin cur chars locs n =>
    simp only at hl
    unfold fdxStep
    dsimp only
    split
    · exact hl
    · split
      · exact upperFixed_addSet _ _ hl (toUpper_idem _)
      · cases cur with
        | some c =>
          show upperFixed (fdxClassify ⟨fin, some c, chars, locs, n⟩
            ((p.type.map toLower).getD []) ((p.text.map trim).getD [])).locations
          rw [fdxClassify_locs]
          exact hl
        | none =>
          show upperFixed (fdxClassify ⟨fin, some ⟨n + 1, "OPENING".toList,
              "UNKNOWN".toList, "DAY".toList, true, []⟩, chars, locs, n + 1⟩
            ((p.type.map toLower).getD []) ((p.text.map trim).getD [])).locations
          rw [fdxClassify_locs]
          exact hl

/-- Folding body lines preserves the set invariant. -/
lemma foldl_bodyStep_sets :
    ∀ (lines : List (List Char)) (st : FState), setsInv st →
      setsInv (lines.foldl bodyStep st) := by
  intro lines
  induction lines with
  | nil => intro st h; exact h
  | cons l ls ih => intro st h; exact ih _ (bodyStep_sets st l h)

/-- Folding FDX paragraphs preserves the set invariant. -/
lemma foldl_fdxStep_sets :
    ∀ (ps : List FDXParagraph) (st : FState), setsInv st →
      setsInv (ps.foldl fdxStep st) := by
  intro ps
  induction ps with
  | nil => intro st h; exact h
  | cons p rest ih => intro st h; exact ih _ (fdxStep_sets st p h)

/-- Folding body lines preserves uppercase-fixedness of both sets. -/
lemma foldl_bodyStep_upper :
    ∀ (lines : List (List Char)) (st : FState),
      upperFixed st.characters → upperFixed st.locations →
      upperFixed (lines.foldl bodyStep st).characters ∧
        upperFixed (lines.foldl bodyStep st).locations := by
  intro lines
  induction lines with
  | nil => intro st hc hl; exact ⟨hc, hl⟩
  | cons l ls ih =>
    intro st hc hl
    obtain ⟨hc', hl'⟩ := bodyStep_upper st l hc hl
    exact ih _ hc' hl'

/-- Folding FDX paragraphs preserves uppercase-fixedness of the location
set. -/
lemma foldl_fdxStep_upperLocs :
    ∀ (ps : List FDXParagraph) (st : FState), upperFixed st.locations →
      upperFixed (ps.foldl fdxStep st).locations := by
  intro ps
  induction ps with
  | nil => intro st hl; exact hl
  | cons p rest ih => intro st hl; exact ih _ (fdxStep_upperLocs st p hl)

/-- Membership characterization of the collected character names. -/
lemma mem_docCharNames (scenes : List ParsedScene) (c : List Char) :
    c ∈ docCharNames scenes ↔
      ∃ sc ∈ scenes, ∃ e ∈ sc.content,
        e.type = ElemType.character ∧ e.character = some c := by
  unfold docCharNames charElemNames
  constructor
  · intro h
    rw [List.mem_flatten] at h
    obtain ⟨l, hl, hc⟩ := h
    rw [List.mem_map] at hl
    obtain ⟨sc, hsc, hfl⟩ := hl
    subst hfl
    rw [List.mem_filterMap] at hc
    obtain ⟨e, he, hge⟩ := hc
    by_cases ht : e.type = ElemType.character
    · rw [if_pos ht] at hge
      exact ⟨sc, hsc, e, he, ht, hge⟩
    · rw [if_neg ht] at hge
      simp at hge
  · rintro ⟨sc, hsc, e, he, ht, hch⟩
    rw [List.mem_flatten]
    refine ⟨_, List.mem_map_of_mem _ hsc, ?_⟩
    rw [List.mem_filterMap]
    exact ⟨e, he, by rw [if_pos ht]; exact hch⟩

/-- Membership characterization of the collected locations. -/
lemma mem_docLocs (scenes : List ParsedScene) (L : List Char) :
    L ∈ docLocs scenes ↔
      ∃ sc ∈ scenes, isSynthScene sc = false ∧ toUpper sc.location = L := by
  unfold docLocs
  rw [List.mem_filterMap]
  constructor
  · rintro ⟨sc, hsc, hge⟩
    by_cases hs : isSynthScene sc
    · rw [if_pos hs] at hge; simp at hge
    · rw [if_neg hs] at hge
      exact ⟨sc, hsc, by simpa using hs, by simpa using hge⟩
  · rintro ⟨sc, hsc, hs, hL⟩
    exact ⟨sc, hsc, by rw [if_neg (by simp [hs])]; exact congrArg some hL⟩

/-- The initial state satisfies the set invariant. -/
lemma initFState_sets : setsInv initFState := ⟨rfl, rfl⟩

/-- Claim C5 (amended): for every parsed document, `characters` is
exactly the first-occurrence de-duplication of the character-element
names across the scenes, and `locations` is exactly the de-duplication of
the uppercased locations of the scenes built from explicit heading lines
(the synthesized `OPENING` scene's `UNKNOWN` is never collected).  The
Fountain parser's sets are case-insensitively duplicate-free (cue names
are uppercase by construction); `parseFDX` preserves character-name
casing, so its `characters` is duplicate-free only under exact equality,
while its `locations` is still case-insensitively duplicate-free. -/
theorem C5_amended :
    (∀ text : List Char,
      (∀ c, c ∈ (parseFountain text).characters ↔
        ∃ sc ∈ (parseFountain text).scenes, ∃ e ∈ sc.content,
          e.type = ElemType.character ∧ e.character = some c) ∧
      ciNodup (parseFountain text).characters ∧
      (∀ L, L ∈ (parseFountain text).locations ↔
        ∃ sc ∈ (parseFountain text).scenes,
          isSynthScene sc = false ∧ toUpper sc.location = L) ∧
      ciNodup (parseFountain text).locations) ∧
    ∀ dom : FDXDom,
      (∀ c, c ∈ (parseFDX dom).characters ↔
        ∃ sc ∈ (parseFDX dom).scenes, ∃ e ∈ sc.content,
          e.type = ElemType.character ∧ e.character = some c) ∧
      (parseFDX dom).characters.Nodup ∧
      (∀ L, L ∈ (parseFDX dom).locations ↔
        ∃ sc ∈ (parseFDX dom).scenes,
          isSynthScene sc = false ∧ toUpper sc.location = L) ∧
      ciNodup (parseFDX dom).locations := by
  constructor
  · intro text
    obtain ⟨h1, h2⟩ := foldl_bodyStep_sets ((titleScan 0 (splitNl text) [] []).2.2)
      initFState initFState_sets
    obtain ⟨hu1, hu2⟩ := foldl_bodyStep_upper ((titleScan 0 (splitNl text) [] []).2.2)
      initFState (by intro s hs; simp [initFState] at hs)
      (by intro s hs; simp [initFState] at hs)
    have hch : (parseFountain text).characters =
        ((titleScan 0 (splitNl text) [] []).2.2.foldl bodyStep initFState).characters :=
      rfl
    have hlo : (parseFountain text).locations =
        ((titleScan 0 (splitNl text) [] []).2.2.foldl bodyStep initFState).locations :=
      rfl
    have hscn : (parseFountain text).scenes =
        ((titleScan 0 (splitNl text) [] []).2.2.foldl bodyStep initFState).finished ++
          ((titleScan 0 (splitNl text) [] []).2.2.foldl bodyStep
            initFState).current.toList := rfl
    refine ⟨?_, ?_, ?_, ?_⟩
    · intro c
      rw [hch, h1, mem_dedupFirst, mem_docCharNames, ← hscn]
    · rw [hch, h1]
      exact ciNodup_of_upperFixed _ (nodup_dedupFirst _) (h1 ▸ hu1)
    · intro L
      rw [hlo, h2, mem_dedupFirst, mem_docLocs, ← hscn]
    · rw [hlo, h2]
      exact ciNodup_of_upperFixed _ (nodup_dedupFirst _) (h2 ▸ hu2)
  · intro dom
    obtain ⟨h1, h2⟩ := foldl_fdxStep_sets dom.paragraphs initFState initFState_sets
    have hu2 := foldl_fdxStep_upperLocs dom.paragraphs initFState
      (by intro s hs; simp [initFState] at hs)
    have hch : (parseFDX dom).characters =
        (dom.paragraphs.foldl fdxStep initFState).characters := rfl
    have hlo : (parseFDX dom).locations =
        (dom.paragraphs.foldl fdxStep initFState).locations := rfl
    have hscn : (parseFDX dom).scenes =
        (dom.paragraphs.foldl fdxStep initFState).finished ++
          (dom.paragraphs.foldl fdxStep initFState).current.toList := rfl
    refine ⟨?_, ?_, ?_, ?_⟩
    · intro c
      rw [hch, h1, mem_dedupFirst, mem_docCharNames, ← hscn]
    · rw [hch, h1]
      exact nodup_dedupFirst _
    · intro L
      rw [hlo, h2, mem_dedupFirst, mem_docLocs, ← hscn]
    · rw [hlo, h2]
      exact ciNodup_of_upperFixed _ (nodup_dedupFirst _) (h2 ▸ hu2)

/-- Witness for claim C5 (amended) at a concrete parse: `JOE` is in the
character set of the C1 scenario document. -/
theorem C5_amended_witness :
    "JOE".toList ∈ (parseFountain c1Input).characters :=
  ((C5_amended.1 c1Input).1 "JOE".toList).mpr
    ⟨⟨1, "INT. DINER - DAY".toList, "DINER".toList, "DAY".toList, true,
        [⟨ElemType.character, "JOE".toList, some "JOE".toList⟩,
         ⟨ElemType.parenthetical, "(tired)".toList, none⟩,
         ⟨ElemType.dialogue, "I need coffee. She pours it.".toList,
           some "JOE".toList⟩]⟩,
      by decide, ⟨ElemType.character, "JOE".toList, some "JOE".toList⟩,
      by decide, rfl, rfl⟩

/-! Beat synthesis for zero-action scenes (claim C4). -/

/-- Character names seen by the exporter in a scene's elements, in push
order (`element.character!` modelled as `getD []`). -/
def sceneCharNames (l : List SceneElement) : List (List Char) :=
  l.filterMap fun e =>
    if e.type = ElemType.character then some (e.character.getD []) else none

/-- Updating the last element acts inside the right part of a nonempty
split. -/
lemma updateLast_append {α : Type} (f : α → α) :
    ∀ (xs ys : List α), ys ≠ [] → updateLast f (xs ++ ys) = xs ++ updateLast f ys := by
  intro xs
  induction xs with
  | nil => intro ys _; rfl
  | cons a r ih =>
    intro ys hys
    cases hr : r ++ ys with
    | nil =>
      rcases List.append_eq_nil.mp hr with ⟨_, h2⟩
      exact absurd h2 hys
    | cons b bs =>
      show updateLast f (a :: (r ++ ys)) = a :: (r ++ updateLast f ys)
      rw [hr]
      show a :: updateLast f (b :: bs) = a :: (r ++ updateLast f ys)
      rw [← hr, ih ys hys]

/-- Updating the last element preserves a pointwise property stable
under the update. -/
lemma updateLast_pred {α : Type} (f : α → α) (P : α → Prop)
    (hf : ∀ a, P a → P (f a)) :
    ∀ (l : List α), (∀ a ∈ l, P a) → ∀ b ∈ updateLast f l, P b := by
  intro l
  induction l with
  | nil => intro _ b hb; simp [updateLast] at hb
  | cons a r ih =>
    intro hl b hb
    cases r with
    | nil =>
      simp only [updateLast, List.mem_singleton] at hb
      subst hb
      exact hf a (hl a (List.mem_singleton.mpr rfl))
    | cons c cs =>
      rw [show updateLast f (a :: c :: cs) = a :: updateLast f (c :: cs) from rfl] at hb
      rcases List.mem_cons.mp hb with h | h
      · exact h ▸ hl a (List.mem_cons_self _ _)
      · exact ih (fun x hx => hl x (List.mem_cons_of_mem a hx)) b h

/-- The element fold extends the beat list only with beats located at the
processed scene's location, and an open current beat means the extension
is nonempty. -/
lemma elemFold_inv (now : Nat) (loc : List Char) (int : Bool) :
    ∀ (content : List SceneElement) (orig delta : List Beat) (cnt : Nat)
      (chars : List (List Char)) (hc : Bool),
      (hc = true → delta ≠ []) → (∀ b ∈ delta, b.location = loc) →
      ∃ delta',
        (content.foldl (elemStep now loc int) (⟨orig ++ delta, cnt⟩, chars, hc)).1.beats =
            orig ++ delta' ∧
          (∀ b ∈ delta', b.location = loc) ∧
          ((content.foldl (elemStep now loc int) (⟨orig ++ delta, cnt⟩, chars, hc)).2.2 =
              true → delta' ≠ []) := by
  intro content
  induction content with
  | nil => intro orig delta cnt chars hc h1 h2; exact ⟨delta, rfl, h2, h1⟩
  | cons e rest ih =>
    intro orig delta cnt chars hc h1 h2
    rw [List.foldl_cons]
    by_cases ha : e.type = ElemType.action
    · have hnc : ¬e.type = ElemType.character := by rw [ha]; decide
      have hevt : elemStep now loc int (⟨orig ++ delta, cnt⟩, chars, hc) e =
          (⟨(orig ++ delta) ++
              [⟨beatId now (cnt + 1), (dedupFirst chars).map handleOf, e.content,
                none, loc, "Standard".toList, lightingOf int⟩],
            cnt + 1⟩, chars, true) := by
        unfold elemStep
        dsimp only
        rw [if_neg hnc, if_pos ha]
      rw [hevt, List.append_assoc]
      refine ih orig
        (delta ++ [⟨beatId now (cnt + 1), (dedupFirst chars).map handleOf,
          e.content, none, loc, "Standard".toList, lightingOf int⟩])
        (cnt + 1) chars true (fun _ => by simp) ?_
      intro b hb
      rcases List.mem_append.mp hb with h | h
      · exact h2 b h
      · rw [List.mem_singleton.mp h]
    · by_cases hd : e.type = ElemType.dialogue ∧ hc = true
      · have hds : delta ≠ [] := h1 hd.2
        have hnc : ¬e.type = ElemType.character := by rw [hd.1]; decide
        have hevt : elemStep now loc int (⟨orig ++ delta, cnt⟩, chars, hc) e =
            (⟨updateLast (dialogueUpd e) (orig ++ delta), cnt⟩, chars, hc) := by
          unfold elemStep
          dsimp only
          rw [if_neg hnc, if_neg ha, if_pos hd]
        rw [hevt, updateLast_append (dialogueUpd e) orig delta hds]
        refine ih orig (updateLast (dialogueUpd e) delta) cnt chars hc ?_ ?_
        · intro _
          cases delta with
          | nil => exact absurd rfl hds
          | cons x xs => cases xs <;> simp [updateLast]
        · exact updateLast_pred (dialogueUpd e) (fun b => b.location = loc)
            (fun a hpa => hpa) delta h2
      · have hevt : elemStep now loc int (⟨orig ++ delta, cnt⟩, chars, hc) e =
            (⟨orig ++ delta, cnt⟩,
              (if e.type = ElemType.character then chars ++ [e.character.getD []]
                else chars), hc) := by
          unfold elemStep
          dsimp only
          rw [if_neg ha, if_neg hd]
        rw [hevt]
        exact ih orig delta cnt _ hc h1 h2

/-- A scene with no action elements leaves the beat state unchanged by
the element walk, accumulating exactly its character names. -/
lemma elemFold_no_action (now : Nat) (loc : List Char) (int : Bool) :
    ∀ (content : List SceneElement) (st : EState) (chars : List (List Char)),
      (∀ e ∈ content, ¬e.type = ElemType.action) →
      content.foldl (elemStep now loc int) (st, chars, false) =
        (st, chars ++ sceneCharNames content, false) := by
  intro content
  induction content with
  | nil => intro st chars _; simp [sceneCharNames]
  | cons e rest ih =>
    intro st chars hna
    have ha : ¬e.type = ElemType.action := hna e (List.mem_cons_self _ _)
    have hstep : elemStep now loc int (st, chars, false) e =
        (st, (if e.type = ElemType.character then chars ++ [e.character.getD []]
          else chars), false) := by
      unfold elemStep
      dsimp only
      rw [if_neg ha, if_neg (by simp)]
    rw [List.foldl_cons, hstep,
      ih st _ (fun x hx => hna x (List.mem_cons_of_mem e hx))]
    by_cases hch : e.type = ElemType.character
    · rw [if_pos hch]
      show _ = (st, chars ++ sceneCharNames (e :: rest), false)
      unfold sceneCharNames
      rw [List.filterMap_cons]
      simp [hch]
    · rw [if_neg hch]
      show _ = (st, chars ++ sceneCharNames (e :: rest), false)
      unfold sceneCharNames
      rw [List.filterMap_cons]
      simp [hch]

/-- Each scene only appends beats bearing its own location. -/
lemma sceneFold_locs (now : Nat) (st : EState) (sc : ParsedScene) :
    ∃ delta, (sceneFold now st sc).beats = st.beats ++ delta ∧
      ∀ b ∈ delta, b.location = sc.location := by
  cases st with
  | mk beats counter =>
    obtain ⟨delta', hb, hloc, _⟩ :=
      elemFold_inv now sc.location sc.interior sc.content beats [] counter []
        false (by intro h; simp at h) (by intro b hb; simp at hb)
    rw [List.append_nil] at hb
    unfold sceneFold
    dsimp only
    unfold synthPart
    split
    · refine ⟨delta' ++
        [⟨beatId now ((sc.content.foldl (elemStep now sc.location sc.interior)
            (⟨beats, counter⟩, [], false)).1.counter + 1),
          (dedupFirst (sc.content.foldl (elemStep now sc.location sc.interior)
            (⟨beats, counter⟩, [], false)).2.1).map handleOf,
          sc.heading, none, sc.location, "Establishing".toList,
          lightingOf sc.interior⟩], ?_, ?_⟩
      · show (sc.content.foldl (elemStep now sc.location sc.interior)
            (⟨beats, counter⟩, [], false)).1.beats ++ _ = _
        rw [hb, List.append_assoc]
      · intro b hbm
        rcases List.mem_append.mp hbm with h | h
        · exact hloc b h
        · rw [List.mem_singleton.mp h]
    · exact ⟨delta', hb, hloc⟩

/-- The scene fold only appends beats bearing scene locations. -/
lemma foldScenes_locs (now : Nat) :
    ∀ (scenes : List ParsedScene) (st : EState),
      ∃ delta, (scenes.foldl (sceneFold now) st).beats = st.beats ++ delta ∧
        ∀ b ∈ delta, ∃ t ∈ scenes, b.location = t.location := by
  intro scenes
  induction scenes with
  | nil => intro st; exact ⟨[], by simp, by intro b hb; simp at hb⟩
  | cons sc rest ih =>
    intro st
    rw [List.foldl_cons]
    obtain ⟨d1, hb1, hl1⟩ := sceneFold_locs now st sc
    obtain ⟨d2, hb2, hl2⟩ := ih (sceneFold now st sc)
    refine ⟨d1 ++ d2, by rw [hb2, hb1, List.append_assoc], ?_⟩
    intro b hb
    rcases List.mem_append.mp hb with h | h
    · exact ⟨sc, List.mem_cons_self _ _, hl1 b h⟩
    · obtain ⟨t, ht, hbt⟩ := hl2 b h
      exact ⟨t, List.mem_cons_of_mem sc ht, hbt⟩

/-- Processing a zero-action scene when no beat with its location exists
yet appends exactly the synthesized `Establishing` beat. -/
lemma sceneFold_no_action (now : Nat) (st : EState) (sc : ParsedScene)
    (hz : (st.beats.filter fun b => b.location = sc.location).length = 0)
    (hna : ∀ e ∈ sc.content, ¬e.type = ElemType.action) :
    sceneFold now st sc =
      ⟨st.beats ++
          [⟨beatId now (st.counter + 1),
            (dedupFirst (sceneCharNames sc.content)).map handleOf, sc.heading,
            none, sc.location, "Establishing".toList, lightingOf sc.interior⟩],
        st.counter + 1⟩ := by
  unfold sceneFold
  dsimp only
  rw [elemFold_no_action now sc.location sc.interior sc.content st [] hna]
  unfold synthPart
  dsimp only
  rw [if_pos hz]
  simp

/-- Claim C4 (amended): for every document and every scene with zero
action elements whose location is distinct from every other scene's
location, the extractor synthesizes exactly one beat for that location:
its action is the scene heading, its camera `Establishing`, its location
the scene's location, its lighting from the interior flag, and its
characters the deduplicated handles of the character names seen in the
scene.  (The synthesis check of line 384 filters the global beat list by
location, so the location-freshness hypothesis is what the code actually
requires; claim C4's per-scene reading fails, see the counterexample.) -/
theorem C4_amended (now : Nat) (doc : ParsedScript) (pre post : List ParsedScene)
    (s : ParsedScene) (hsc : doc.scenes = pre ++ s :: post)
    (hna : ∀ e ∈ s.content, ¬e.type = ElemType.action)
    (hfresh : ∀ t ∈ pre ++ post, ¬t.location = s.location) :
    ((exportToDirector now doc).beats.filter fun b => b.location = s.location).map
        beatCore =
      [⟨(dedupFirst (sceneCharNames s.content)).map handleOf, s.heading, none,
        s.location, "Establishing".toList, lightingOf s.interior⟩] := by
  have hexp : (exportToDirector now doc).beats =
      (doc.scenes.foldl (sceneFold now) ⟨[], 0⟩).beats := rfl
  rw [hexp, hsc, List.foldl_append, List.foldl_cons]
  obtain ⟨d1, hb1, hl1⟩ := foldScenes_locs now pre ⟨[], 0⟩
  rw [show (⟨[], 0⟩ : EState).beats = [] from rfl, List.nil_append] at hb1
  have hz : ((pre.foldl (sceneFold now) ⟨[], 0⟩).beats.filter
      fun b => b.location = s.location).length = 0 := by
    rw [hb1, List.length_eq_zero, List.filter_eq_nil_iff]
    intro b hbm
    obtain ⟨t, ht, hbt⟩ := hl1 b hbm
    simpa [hbt] using hfresh t (List.mem_append.mpr (Or.inl ht))
  rw [sceneFold_no_action now _ s hz hna]
  obtain ⟨d2, hb2, hl2⟩ := foldScenes_locs now post
    ⟨(pre.foldl (sceneFold now) ⟨[], 0⟩).beats ++
        [⟨beatId now ((pre.foldl (sceneFold now) ⟨[], 0⟩).counter + 1),
          (dedupFirst (sceneCharNames s.content)).map handleOf, s.heading, none,
          s.location, "Establishing".toList, lightingOf s.interior⟩],
      (pre.foldl (sceneFold now) ⟨[], 0⟩).counter + 1⟩
  rw [hb2]
  show ((((pre.foldl (sceneFold now) ⟨[], 0⟩).beats ++ _) ++ d2).filter
    fun b => b.location = s.location).map beatCore = _
  rw [List.filter_append, List.filter_append, List.length_eq_zero.mp hz]
  have hf2 : (d2.filter fun b => b.location = s.location) = [] := by
    rw [List.filter_eq_nil_iff]
    intro b hbm
    obtain ⟨t, ht, hbt⟩ := hl2 b hbm
    simpa [hbt] using hfresh t (List.mem_append.mpr (Or.inr ht))
  rw [hf2]
  simp [beatCore]

/-- The single-scene document for the C4 witness: one zero-action scene
with one character element. -/
def c4WitnessDoc : ParsedScript :=
  { title := "T".toList, authors := [], rawText := [],
    scenes :=
      [⟨1, "INT. LAB - DAY".toList, "LAB".toList, "DAY".toList, true,
        [⟨ElemType.character, "JOE".toList, some "JOE".toList⟩,
         ⟨ElemType.dialogue, "Hi.".toList, some "JOE".toList⟩]⟩],
    characters := ["JOE".toList], locations := ["LAB".toList],
    format := "fountain".toList }

/-- Witness for claim C4 (amended): the witness document's single
zero-action scene receives exactly one `Establishing` beat carrying the
scene heading and the character handle. -/
theorem C4_amended_witness :
    ((exportToDirector 0 c4WitnessDoc).beats.filter
        fun b => b.location = "LAB".toList).map beatCore =
      [⟨["@JOE".toList], "INT. LAB - DAY".toList, none, "LAB".toList,
        "Establishing".toList, "Interior".toList⟩] := by
  have h := C4_amended 0 c4WitnessDoc [] []
    ⟨1, "INT. LAB - DAY".toList, "LAB".toList, "DAY".toList, true,
      [⟨ElemType.character, "JOE".toList, some "JOE".toList⟩,
       ⟨ElemType.dialogue, "Hi.".toList, some "JOE".toList⟩]⟩
    rfl (by decide) (by intro t ht; simp at ht)
  rw [h]
  decide

/-! Heading split characterization (claim C7). -/

/-- Index of the first dash usable as the heading separator: it needs at
least one character of the remainder before it (the lazy group) and at
least one character after it (the nonempty group 2). -/
def firstGoodDash : List Char → Option Nat
  | [] => none
  | [_] => none
  | _ :: c :: cs =>
    if isDash c ∧ cs ≠ [] then some 1
    else (firstGoodDash (c :: cs)).map (· + 1)

/-- Whitespace characters are not dashes. -/
lemma ws_not_dash (c : Char) (h : isWs c = true) : isDash c = false := by
  simp only [isWs, Char.isWhitespace, Bool.or_eq_true, decide_eq_true_eq] at h
  rcases h with ((h | h) | h) | h <;> subst h <;> decide

/-- Dropping a predicate-true prefix passes through an all-true block. -/
lemma dropWhile_all_append (p : Char → Bool) :
    ∀ (u v : List Char), (∀ x ∈ u, p x = true) →
      (u ++ v).dropWhile p = v.dropWhile p := by
  intro u
  induction u with
  | nil => intro v _; rfl
  | cons a r ih =>
    intro v hu
    rw [List.cons_append, List.dropWhile_cons,
      if_pos (hu a (List.mem_cons_self _ _))]
    exact ih v fun x hx => hu x (List.mem_cons_of_mem a hx)

/-- Right-trimming ignores an all-whitespace tail. -/
lemma trimR_append_ws (xs w : List Char) (hw : ∀ x ∈ w, isWs x = true) :
    trimR (xs ++ w) = trimR xs := by
  unfold trimR
  rw [List.reverse_append, dropWhile_all_append isWs w.reverse xs.reverse
    (fun x hx => hw x (List.mem_reverse.mp hx))]

/-- A fully trimmed-away list was all whitespace. -/
lemma trim_eq_nil_ws (l : List Char) (h : trim l = []) :
    ∀ x ∈ l, isWs x = true := by
  unfold trim trimL at h
  rw [List.dropWhile_eq_nil_iff] at h
  intro x hx
  by_cases hws : isWs x = true
  · exact hws
  · exfalso
    have hxr : x ∈ l.reverse := List.mem_reverse.mpr hx
    rw [← List.takeWhile_append_dropWhile (p := isWs) (l := l.reverse)] at hxr
    rcases List.mem_append.mp hxr with h1 | h1
    · exact hws (List.mem_takeWhile_imp h1)
    · have : x ∈ trimR l := by
        unfold trimR
        exact List.mem_reverse.mpr h1
      exact hws (h x this)

/-- Dropping whitespace cannot empty a list whose last character is not
whitespace. -/
lemma dropWhile_ws_ne_nil (l : List Char) (c : Char) (hl : l.getLast? = some c)
    (hc : isWs c = false) : l.dropWhile isWs ≠ [] := by
  intro hnil
  rw [List.dropWhile_eq_nil_iff] at hnil
  obtain ⟨l', rfl⟩ := exists_concat_of_getLastQ l c hl
  have := hnil c (by simp)
  rw [this] at hc
  exact Bool.true_eq_false.mp hc

/-- Right-trimming is the identity when the last character is not
whitespace. -/
lemma trimR_eq_self (l : List Char) (c : Char) (hl : l.getLast? = some c)
    (hc : isWs c = false) : trimR l = l := by
  unfold trimR
  rw [show l.reverse.dropWhile isWs = l.reverse from ?_, List.reverse_reverse]
  cases hr : l.reverse with
  | nil => rfl
  | cons a r =>
    have ha : a = c := by
      have := List.head?_reverse l
      rw [hr, hl] at this
      simpa using this
    rw [List.dropWhile_cons, ha, hc]
    simp

/-- Left-trimming is the identity when the head is not whitespace. -/
lemma trimL_eq_self (l : List Char) (c : Char) (hl : l.head? = some c)
    (hc : isWs c = false) : trimL l = l := by
  unfold trimL
  cases l with
  | nil => rfl
  | cons a r =>
    have ha : a = c := by simpa using hl
    rw [List.dropWhile_cons, ha, hc]
    simp

/-- Dropping whitespace twice is the same as dropping it once. -/
lemma dropWhile_ws_idem (l : List Char) :
    (l.dropWhile isWs).dropWhile isWs = l.dropWhile isWs := by
  induction l with
  | nil => rfl
  | cons a r ih =>
    rw [List.dropWhile_cons]
    by_cases ha : isWs a
    · rw [if_pos ha]; exact ih
    · rw [if_neg ha, List.dropWhile_cons, if_neg ha]

/-- Dash characters are not whitespace. -/
lemma dash_not_ws (c : Char) (h : isDash c = true) : isWs c = false := by
  simp only [isDash, Bool.or_eq_true, beq_iff_eq] at h
  rcases h with h | h <;> subst h <;> decide

/-- Position of the first usable dash when the whitespace-stripped tail
starts with a dash followed by something. -/
lemma firstGoodDash_ws (x : Char) (rest : List Char) (hx : isDash x = true)
    (hrest : rest ≠ []) :
    ∀ (cs : List Char), cs.dropWhile isWs = x :: rest →
      ∀ c, firstGoodDash (c :: cs) = some ((cs.takeWhile isWs).length + 1) := by
  intro cs
  induction cs with
  | nil => intro h; simp at h
  | cons d ds ih =>
    intro hdw c
    by_cases hd : isWs d
    · rw [List.dropWhile_cons, if_pos hd] at hdw
      have hds : ds ≠ [] := by
        intro hnil
        rw [hnil] at hdw
        simp at hdw
      have hrec := ih hdw d
      have hnd : ¬(isDash d ∧ ds ≠ []) := by
        intro hcon
        rw [dash_not_ws d hcon.1] at hd
        simp at hd
      cases ds with
      | nil => exact absurd rfl hds
      | cons e es =>
        rw [show firstGoodDash (c :: d :: e :: es) =
          (if isDash d ∧ (e :: es) ≠ [] then some 1
            else (firstGoodDash (d :: e :: es)).map (· + 1)) from rfl]
        rw [if_neg hnd, hrec]
        simp [List.takeWhile_cons, hd]
    · rw [List.dropWhile_cons, if_neg hd] at hdw
      injection hdw with hdx hdsr
      subst hdx
      subst hdsr
      cases ds with
      | nil => exact absurd rfl hrest
      | cons e es =>
        rw [show firstGoodDash (c :: d :: e :: es) =
          (if isDash d ∧ (e :: es) ≠ [] then some 1
            else (firstGoodDash (d :: e :: es)).map (· + 1)) from rfl]
        rw [if_pos ⟨hx, by simp⟩]
        simp [List.takeWhile_cons, hd]

/-- A dash heading a nonempty tail always satisfies `dashTail`. -/
lemma dashTail_some_of_dash (d : Char) (ds : List Char) (hd : isDash d = true)
    (hds : ds ≠ []) : dashTail (d :: ds) ≠ none := by
  unfold dashTail
  rw [List.dropWhile_cons, if_neg (by rw [dash_not_ws d hd]; simp)]
  dsimp only
  rw [hd]
  simp only [if_true]
  rw [if_neg (by simpa using hds)]
  cases ds.dropWhile isWs <;> simp

/-- Decomposition of a successful `dashTail`: the whitespace-stripped
input starts with a dash whose tail is nonempty, and (when the input's
last character is not whitespace) group 2 is the whitespace-stripped
remainder after the dash. -/
lemma dashTail_core (d : Char) (ds g2 : List Char)
    (hdt : dashTail (d :: ds) = some g2)
    (hlast : ∀ ch, (d :: ds).getLast? = some ch → isWs ch = false) :
    ∃ x rest, (d :: ds).dropWhile isWs = x :: rest ∧ isDash x = true ∧
      rest ≠ [] ∧ g2 = rest.dropWhile isWs := by
  unfold dashTail at hdt
  cases hdw : (d :: ds).dropWhile isWs with
  | nil => rw [hdw] at hdt; simp at hdt
  | cons x rest =>
    rw [hdw] at hdt
    dsimp only at hdt
    by_cases hx : isDash x
    · rw [if_pos hx] at hdt
      by_cases hre : rest.isEmpty
      · rw [if_pos hre] at hdt; simp at hdt
      · rw [if_neg hre] at hdt
        have hrne : rest ≠ [] := by simpa using hre
        have hrlast : rest.getLast? = (d :: ds).getLast? := by
          have h1 : (d :: ds).getLast? = (x :: rest).getLast? := by
            conv =>
              lhs
              rw [← List.takeWhile_append_dropWhile (p := isWs) (l := d :: ds)]
            rw [List.getLast?_append_of_ne_nil _ (by rw [hdw]; simp), hdw]
          cases rest with
          | nil => exact absurd rfl hrne
          | cons r rs => rw [h1, List.getLast?_cons_cons]
        obtain ⟨cr, hcr⟩ :=
          Option.isSome_iff_exists.mp (by
            rw [List.getLast?_isSome]; exact hrne)
        have hcrw : isWs cr = false := hlast cr (hrlast ▸ hcr)
        have hrd : rest.dropWhile isWs ≠ [] := dropWhile_ws_ne_nil rest cr hcr hcrw
        cases hrdw : rest.dropWhile isWs with
        | nil => exact absurd hrdw hrd
        | cons g gs =>
          rw [hrdw] at hdt
          refine ⟨x, rest, rfl, hx, hrne, ?_⟩
          rw [hrdw]
          simpa using hdt.symm

    · rw [if_neg hx] at hdt; simp at hdt

/-- Dropping or taking the length of a known prefix recovers the split. -/
lemma split_drop_take {a : Type} (l u v : List a) (h : u ++ v = l) :
    l.drop u.length = v ∧ l.take u.length = u := by
  subst h
  exact ⟨List.drop_left u v, List.take_left u v⟩

/-- Characterization of the lazy search when a usable dash exists: group
2 is the whitespace-stripped text after the first usable dash, and group
1 right-trims to the text before that dash. -/
lemma lazyLoc_spec_some :
    ∀ (R acc : List Char) (q : Nat),
      (∀ c, R.getLast? = some c → isWs c = false) →
      firstGoodDash R = some q →
      (lazyLoc acc R).2 = some ((R.drop (q + 1)).dropWhile isWs) ∧
        trimR (lazyLoc acc R).1 = trimR (acc.reverse ++ R.take q) := by
  intro R
  induction R with
  | nil => intro acc q _ hfg; simp [firstGoodDash] at hfg
  | cons c cs ih =>
    intro acc q hlast hfg
    cases cs with
    | nil => simp [firstGoodDash] at hfg
    | cons d ds =>
      have hlast' : ∀ ch, (d :: ds).getLast? = some ch → isWs ch = false := by
        intro ch hch
        exact hlast ch (by rw [List.getLast?_cons_cons]; exact hch)
      have hlz : lazyLoc acc (c :: d :: ds) =
          (match dashTail (d :: ds) with
            | some g2 => ((c :: acc).reverse, some g2)
            | none => lazyLoc (c :: acc) (d :: ds)) := rfl
      cases hdt : dashTail (d :: ds) with
      | some g2 =>
        obtain ⟨x, rest, hdw, hx, hrne, hg2⟩ := dashTail_core d ds g2 hdt hlast'
        have hq : firstGoodDash (c :: d :: ds) =
            some (((d :: ds).takeWhile isWs).length + 1) :=
          firstGoodDash_ws x rest hx hrne (d :: ds) hdw c
        have hqv : q = ((d :: ds).takeWhile isWs).length + 1 := by
          rw [hfg] at hq
          simpa using hq
        subst hqv
        have hsplit : (d :: ds).takeWhile isWs ++ (x :: rest) = d :: ds := by
          rw [← hdw]
          exact List.takeWhile_append_dropWhile isWs (d :: ds)
        have hsplit2 : ((d :: ds).takeWhile isWs ++ [x]) ++ rest = d :: ds := by
          rw [List.append_assoc]
          exact hsplit
        have hdrop : (d :: ds).drop (((d :: ds).takeWhile isWs).length + 1) =
            rest := by
          have h1 := (split_drop_take (d :: ds)
            ((d :: ds).takeWhile isWs ++ [x]) rest hsplit2).1
          simpa using h1
        have htake : (d :: ds).take (((d :: ds).takeWhile isWs).length) =
            (d :: ds).takeWhile isWs :=
          (split_drop_take (d :: ds) ((d :: ds).takeWhile isWs)
            (x :: rest) hsplit).2
        constructor
        · rw [hlz, hdt]
          show some g2 = _
          rw [hg2]
          congr 1
          rw [show (c :: d :: ds).drop
            ((((d :: ds).takeWhile isWs).length + 1) + 1) =
            (d :: ds).drop (((d :: ds).takeWhile isWs).length + 1) from rfl, hdrop]
        · rw [hlz, hdt]
          show trimR ((c :: acc).reverse) = _
          rw [show (c :: d :: ds).take (((d :: ds).takeWhile isWs).length + 1) =
            c :: (d :: ds).take (((d :: ds).takeWhile isWs).length) from rfl,
            htake]
          rw [List.reverse_cons]
          rw [show acc.reverse ++ c :: (d :: ds).takeWhile isWs =
            (acc.reverse ++ [c]) ++ (d :: ds).takeWhile isWs by
              rw [List.append_assoc]; rfl]
          rw [trimR_append_ws _ _ (fun y hy => List.mem_takeWhile_imp hy)]
      | none =>
        have hrec : lazyLoc acc (c :: d :: ds) = lazyLoc (c :: acc) (d :: ds) := by
          rw [hlz, hdt]
        have hfg' : ∃ q', firstGoodDash (d :: ds) = some q' ∧ q = q' + 1 := by
          rw [show firstGoodDash (c :: d :: ds) =
            (if isDash d ∧ ds ≠ [] then some 1
              else (firstGoodDash (d :: ds)).map (· + 1)) from rfl] at hfg
          by_cases hcond : isDash d ∧ ds ≠ []
          · exact absurd hdt (dashTail_some_of_dash d ds hcond.1 hcond.2)
          · rw [if_neg hcond] at hfg
            obtain ⟨q', hq1, hq2⟩ := Option.map_eq_some'.mp hfg
            exact ⟨q', hq1, hq2.symm⟩
        obtain ⟨q', htail, hqv⟩ := hfg'
        subst hqv
        obtain ⟨ih1, ih2⟩ := ih (c :: acc) q' hlast' htail
        constructor
        · rw [hrec, ih1]
          rfl
        · rw [hrec, ih2, List.reverse_cons]
          rw [show (c :: d :: ds).take (q' + 1) =
            c :: (d :: ds).take q' from rfl]
          rw [List.append_assoc]
          rfl

/-- Characterization of the lazy search when no usable dash exists:
group 2 is absent and group 1 is the whole remainder. -/
lemma lazyLoc_spec_none :
    ∀ (R acc : List Char),
      (∀ c, R.getLast? = some c → isWs c = false) →
      firstGoodDash R = none →
      (lazyLoc acc R).2 = none ∧ (lazyLoc acc R).1 = acc.reverse ++ R := by
  intro R
  induction R with
  | nil => intro acc _ _; exact ⟨rfl, by simp [lazyLoc]⟩
  | cons c cs ih =>
    intro acc hlast hfg
    cases cs with
    | nil =>
      constructor
      · rfl
      · show (c :: acc).reverse = acc.reverse ++ [c]
        exact List.reverse_cons c acc
    | cons d ds =>
      have hlast' : ∀ ch, (d :: ds).getLast? = some ch → isWs ch = false := by
        intro ch hch
        exact hlast ch (by rw [List.getLast?_cons_cons]; exact hch)
      have hlz : lazyLoc acc (c :: d :: ds) =
          (match dashTail (d :: ds) with
            | some g2 => ((c :: acc).reverse, some g2)
            | none => lazyLoc (c :: acc) (d :: ds)) := rfl
      cases hdt : dashTail (d :: ds) with
      | some g2 =>
        obtain ⟨x, rest, hdw, hx, hrne, _⟩ := dashTail_core d ds g2 hdt hlast'
        have hq := firstGoodDash_ws x rest hx hrne (d :: ds) hdw c
        rw [hfg] at hq
        simp at hq
      | none =>
        have hrec : lazyLoc acc (c :: d :: ds) = lazyLoc (c :: acc) (d :: ds) := by
          rw [hlz, hdt]
        have htail : firstGoodDash (d :: ds) = none := by
          rw [show firstGoodDash (c :: d :: ds) =
            (if isDash d ∧ ds ≠ [] then some 1
              else (firstGoodDash (d :: ds)).map (· + 1)) from rfl] at hfg
          by_cases hcond : isDash d ∧ ds ≠ []
          · rw [if_pos hcond] at hfg; simp at hfg
          · rw [if_neg hcond] at hfg
            exact Option.map_eq_none'.mp hfg
        obtain ⟨ih1, ih2⟩ := ih (c :: acc) hlast' htail
        constructor
        · rw [hrec, ih1]
        · rw [hrec, ih2, List.reverse_cons, List.append_assoc]
          rfl

/-- The head surviving a `dropWhile` fails the predicate. -/
lemma dropWhile_head_false (p : Char → Bool) :
    ∀ (l : List Char) (a : Char) (as : List Char),
      l.dropWhile p = a :: as → p a = false := by
  intro l
  induction l with
  | nil => intro a as h; simp at h
  | cons b bs ih =>
    intro a as h
    rw [List.dropWhile_cons] at h
    by_cases hb : p b
    · rw [if_pos hb] at h
      exact ih a as h
    · rw [if_neg hb] at h
      injection h with h1 _
      subst h1
      simpa using hb

/-- A JavaScript-trimmed string never ends in whitespace. -/
lemma trim_last_not_ws (t : List Char) (ht : trim t = t) :
    ∀ c, t.getLast? = some c → isWs c = false := by
  intro c hc
  by_contra hws
  rw [Bool.not_eq_false] at hws
  obtain ⟨u, rfl⟩ := exists_concat_of_getLastQ t c hc
  have h1 : trimR (u ++ [c]) = trimR u := by
    apply trimR_append_ws
    intro x hx
    have hx' : x = c := by simpa using hx
    rw [hx']
    exact hws
  have h2 : (trim (u ++ [c])).length ≤ u.length := by
    rw [show trim (u ++ [c]) = trimL (trimR u) by rw [trim, h1]]
    calc (trimL (trimR u)).length ≤ (trimR u).length := by
          unfold trimL
          exact (List.dropWhile_sublist isWs).length_le
      _ ≤ u.length := by
          unfold trimR
          rw [List.length_reverse]
          calc (u.reverse.dropWhile isWs).length ≤ u.reverse.length :=
                (List.dropWhile_sublist isWs).length_le
            _ = u.length := List.length_reverse u
  have h3 := congrArg List.length ht
  rw [List.length_append] at h3
  simp only [List.length_cons, List.length_nil] at h3
  omega

/-- Dropping leading whitespace preserves the last character when
something survives. -/
lemma lastQ_dropWhile (l : List Char) (h : l.dropWhile isWs ≠ []) :
    (l.dropWhile isWs).getLast? = l.getLast? := by
  conv => rhs; rw [← List.takeWhile_append_dropWhile (p := isWs) (l := l)]
  exact (List.getLast?_append_of_ne_nil _ h).symm

/-- Dropping a prefix preserves the last character when something
survives. -/
lemma lastQ_drop (l : List Char) (k : Nat) (h : l.drop k ≠ []) :
    (l.drop k).getLast? = l.getLast? := by
  conv => rhs; rw [← List.take_append_drop k l]
  exact (List.getLast?_append_of_ne_nil _ h).symm

/-- A usable dash is never at position zero: the lazy group must first
consume at least one character. -/
lemma firstGoodDash_pos (l : List Char) (q : Nat)
    (h : firstGoodDash l = some q) : 1 ≤ q := by
  cases l with
  | nil => simp [firstGoodDash] at h
  | cons a r =>
    cases r with
    | nil => simp [firstGoodDash] at h
    | cons c cs =>
      rw [show firstGoodDash (a :: c :: cs) =
        (if isDash c ∧ cs ≠ [] then some 1
          else (firstGoodDash (c :: cs)).map (· + 1)) from rfl] at h
      by_cases hc : isDash c ∧ cs ≠ []
      · rw [if_pos hc] at h
        injection h with h1
        omega
      · rw [if_neg hc] at h
        obtain ⟨q1, _, hq2⟩ := Option.map_eq_some'.mp h
        omega

/-- A usable dash has at least one character after it. -/
lemma firstGoodDash_lt :
    ∀ (l : List Char) (q : Nat), firstGoodDash l = some q →
      q + 1 < l.length := by
  intro l
  induction l with
  | nil => intro q h; simp [firstGoodDash] at h
  | cons a r ih =>
    intro q h
    cases r with
    | nil => simp [firstGoodDash] at h
    | cons c cs =>
      have hlen : (a :: c :: cs).length = cs.length + 2 := by simp
      rw [show firstGoodDash (a :: c :: cs) =
        (if isDash c ∧ cs ≠ [] then some 1
          else (firstGoodDash (c :: cs)).map (· + 1)) from rfl] at h
      by_cases hc : isDash c ∧ cs ≠ []
      · rw [if_pos hc] at h
        injection h with h1
        have hcs : 1 ≤ cs.length := by
          cases cs with
          | nil => exact absurd rfl hc.2
          | cons _ _ => simp
        omega
      · rw [if_neg hc] at h
        obtain ⟨q1, hq1, hq2⟩ := Option.map_eq_some'.mp h
        have := ih q1 hq1
        have hlen' : (c :: cs).length = cs.length + 1 := by simp
        omega

/-- Which suffix the heading-prefix matcher hands to the rest of the
regex. -/
lemma matchPrefixCI_drop (t rest : List Char)
    (h : matchPrefixCI t = some rest) : rest = t.drop 4 ∨ rest = t.drop 8 := by
  unfold matchPrefixCI at h
  split at h
  · exact Or.inl (by injection h with h1; exact h1.symm)
  · split at h
    · exact Or.inl (by injection h with h1; exact h1.symm)
    · split at h
      · exact Or.inr (by injection h with h1; exact h1.symm)
      · split at h
        · exact Or.inl (by injection h with h1; exact h1.symm)
        · exact absurd h (by simp)

/-- The unanchored search succeeds at the start position whenever the
prefix matcher does and leaves a non-whitespace remainder. -/
lemma locSearch_eq (t rest : List Char) (hm : matchPrefixCI t = some rest)
    (hne : rest.dropWhile isWs ≠ []) :
    locSearch t = some (lazyLoc [] (rest.dropWhile isWs)) := by
  cases t with
  | nil =>
    rw [show matchPrefixCI ([] : List Char) = none from by decide] at hm
    exact absurd hm (by simp)
  | cons c cs =>
    rw [show locSearch (c :: cs) =
      (match matchPrefixCI (c :: cs) with
        | some rest =>
          match rest.dropWhile isWs with
          | [] =>
            if rest.isEmpty then locSearch cs
            else some (rest.drop (rest.length - 1), none)
          | r => some (lazyLoc [] r)
        | none => locSearch cs) from rfl, hm]
    cases hr : rest.dropWhile isWs with
    | nil => exact absurd hr hne
    | cons a as =>
      dsimp only
      rw [hr]

/-- Reduction of `headingLoc` through a successful search that captured
group 2. -/
lemma headingLoc_eq_some (t g1 g2 : List Char)
    (h : locSearch t = some (g1, some g2)) :
    headingLoc t =
      ((if (trim g1).isEmpty then t else trim g1),
        (if (trim g2).isEmpty then "DAY".toList else trim g2)) := by
  unfold headingLoc
  rw [h]

/-- Reduction of `headingLoc` through a successful search without
group 2. -/
lemma headingLoc_eq_none (t g1 : List Char)
    (h : locSearch t = some (g1, none)) :
    headingLoc t =
      ((if (trim g1).isEmpty then t else trim g1), "DAY".toList) := by
  unfold headingLoc
  rw [h]

/-- Boolean emptiness test against the nil list. -/
lemma isEmpty_true_iff (l : List Char) : l.isEmpty = true ↔ l = [] := by
  cases l <;> simp

/-- The remainder handed to the location regex ends, like the trimmed
heading line itself, in a non-whitespace character. -/
lemma rest_last_not_ws (t rest : List Char) (ht : trim t = t)
    (hm : matchPrefixCI t = some rest) (hne : rest.dropWhile isWs ≠ []) :
    ∀ c, (rest.dropWhile isWs).getLast? = some c → isWs c = false := by
  have hrest_ne : rest ≠ [] := by
    intro h0
    rw [h0] at hne
    exact hne rfl
  intro c hc
  have h1 : (rest.dropWhile isWs).getLast? = rest.getLast? :=
    lastQ_dropWhile rest hne
  have h2 : rest.getLast? = t.getLast? := by
    rcases matchPrefixCI_drop t rest hm with h | h
    · have h4 : t.drop 4 ≠ [] := by rw [← h]; exact hrest_ne
      rw [h]
      exact lastQ_drop t 4 h4
    · have h8 : t.drop 8 ≠ [] := by rw [← h]; exact hrest_ne
      rw [h]
      exact lastQ_drop t 8 h8
  exact trim_last_not_ws t ht c (by rw [← h2, ← h1]; exact hc)

/-- Both captured groups of the location regex, described through the
position of the first usable dash. -/
lemma lazy_components (R : List Char) (q : Nat) (hne : R ≠ [])
    (hhead : ∀ c, R.head? = some c → isWs c = false)
    (hrlast : ∀ c, R.getLast? = some c → isWs c = false)
    (hfg : firstGoodDash R = some q) :
    ∃ g1, lazyLoc [] R = (g1, some ((R.drop (q + 1)).dropWhile isWs)) ∧
      trim g1 = trim (R.take q) ∧ trim (R.take q) ≠ [] ∧
      trim ((R.drop (q + 1)).dropWhile isWs) = trim (R.drop (q + 1)) ∧
      trim (R.drop (q + 1)) ≠ [] := by
  obtain ⟨hg2, hg1⟩ := lazyLoc_spec_some R [] q hrlast hfg
  rcases hlz : lazyLoc [] R with ⟨g1, g2q⟩
  rw [hlz] at hg1 hg2
  dsimp only at hg1 hg2
  simp only [List.reverse_nil, List.nil_append] at hg1
  subst hg2
  have e1 : trim g1 = trim (R.take q) := by
    unfold trim
    rw [hg1]
  have hlocne : trim (R.take q) ≠ [] := by
    obtain ⟨a, as, hRc⟩ : ∃ a as, R = a :: as := by
      cases R with
      | nil => exact absurd rfl hne
      | cons a as => exact ⟨a, as, rfl⟩
    have ha : isWs a = false := hhead a (by rw [hRc]; rfl)
    have hq1 := firstGoodDash_pos R q hfg
    obtain ⟨m, hqm⟩ : ∃ m, q = m + 1 := ⟨q - 1, by omega⟩
    intro hzero
    rw [hRc, hqm, List.take_succ_cons] at hzero
    have hws := trim_eq_nil_ws _ hzero a (List.mem_cons_self _ _)
    rw [hws] at ha
    exact Bool.true_eq_false.mp ha
  have hlt := firstGoodDash_lt R q hfg
  have hYne : R.drop (q + 1) ≠ [] := by
    intro h0
    have hl0 := congrArg List.length h0
    rw [List.length_drop] at hl0
    simp only [List.length_nil] at hl0
    omega
  obtain ⟨c0, hc0⟩ := Option.isSome_iff_exists.mp (List.getLast?_isSome.mpr hne)
  have hc0w : isWs c0 = false := hrlast c0 hc0
  have hYlast : (R.drop (q + 1)).getLast? = some c0 := by
    rw [lastQ_drop R (q + 1) hYne]
    exact hc0
  have hZne : (R.drop (q + 1)).dropWhile isWs ≠ [] :=
    dropWhile_ws_ne_nil (R.drop (q + 1)) c0 hYlast hc0w
  have hZlast : ((R.drop (q + 1)).dropWhile isWs).getLast? = some c0 := by
    rw [lastQ_dropWhile (R.drop (q + 1)) hZne]
    exact hYlast
  have htrimZ : trim ((R.drop (q + 1)).dropWhile isWs) =
      (R.drop (q + 1)).dropWhile isWs := by
    unfold trim
    rw [trimR_eq_self _ c0 hZlast hc0w]
    unfold trimL
    exact dropWhile_ws_idem (R.drop (q + 1))
  have htrimY : trim (R.drop (q + 1)) = (R.drop (q + 1)).dropWhile isWs := by
    unfold trim
    rw [trimR_eq_self _ c0 hYlast hc0w]
    unfold trimL
    rfl
  exact ⟨g1, rfl, e1, hlocne, htrimZ.trans htrimY.symm,
    by rw [htrimY]; exact hZne⟩

/-- Claim C7 (corrected): a heading line recognized by an
INT./EXT./INT/EXT./I/E. prefix with a nonempty remainder is split at the
first dash that has at least one remainder character before it and at
least one further character after it — the location is the trimmed text
before that dash and the time of day the trimmed text after it; when no
such dash exists the whole remainder becomes the location and the time
of day defaults to DAY. In particular "INT. ABANDONED WAREHOUSE - NIGHT"
yields location "ABANDONED WAREHOUSE" and time of day "NIGHT". -/
theorem C7_amended :
    (∀ (t rest : List Char) (q : Nat),
        trim t = t → matchPrefixCI t = some rest →
        rest.dropWhile isWs ≠ [] →
        firstGoodDash (rest.dropWhile isWs) = some q →
        headingLoc t =
          (trim ((rest.dropWhile isWs).take q),
            trim ((rest.dropWhile isWs).drop (q + 1)))) ∧
    (∀ (t rest : List Char),
        trim t = t → matchPrefixCI t = some rest →
        rest.dropWhile isWs ≠ [] →
        firstGoodDash (rest.dropWhile isWs) = none →
        headingLoc t = (rest.dropWhile isWs, "DAY".toList)) ∧
    headingLoc "INT. ABANDONED WAREHOUSE - NIGHT".toList =
      ("ABANDONED WAREHOUSE".toList, "NIGHT".toList) := by
  refine ⟨?_, ?_, by decide⟩
  · intro t rest q ht hm hne hfg
    have hrlast := rest_last_not_ws t rest ht hm hne
    have hhead : ∀ c, (rest.dropWhile isWs).head? = some c →
        isWs c = false := by
      intro c hc
      cases hR : rest.dropWhile isWs with
      | nil => rw [hR] at hc; exact absurd hc (by simp)
      | cons a as =>
        have hca : c = a := by
          rw [hR] at hc
          simpa using hc.symm
        rw [hca]
        exact dropWhile_head_false isWs rest a as hR
    obtain ⟨g1, hlz, e1, hlocne, e2, htodne⟩ :=
      lazy_components (rest.dropWhile isWs) q hne hhead hrlast hfg
    have hsome : locSearch t =
        some (g1, some (((rest.dropWhile isWs).drop (q + 1)).dropWhile isWs)) := by
      rw [locSearch_eq t rest hm hne, hlz]
    rw [headingLoc_eq_some t g1
      (((rest.dropWhile isWs).drop (q + 1)).dropWhile isWs) hsome]
    rw [e1, e2]
    have hc1 : ¬ ((trim ((rest.dropWhile isWs).take q)).isEmpty = true) := by
      intro hh
      exact hlocne ((isEmpty_true_iff _).mp hh)
    have hc2 : ¬ ((trim ((rest.dropWhile isWs).drop (q + 1))).isEmpty
        = true) := by
      intro hh
      exact htodne ((isEmpty_true_iff _).mp hh)
    rw [if_neg hc1, if_neg hc2]
  · intro t rest ht hm hne hfg
    have hrlast := rest_last_not_ws t rest ht hm hne
    obtain ⟨hg2, hg1⟩ := lazyLoc_spec_none (rest.dropWhile isWs) [] hrlast hfg
    rcases hlz : lazyLoc [] (rest.dropWhile isWs) with ⟨g1, g2q⟩
    rw [hlz] at hg1 hg2
    dsimp only at hg1 hg2
    simp only [List.reverse_nil, List.nil_append] at hg1
    subst hg2
    subst hg1
    have hsome : locSearch t = some (rest.dropWhile isWs, none) := by
      rw [locSearch_eq t rest hm hne, hlz]
    rw [headingLoc_eq_none t _ hsome]
    obtain ⟨c0, hc0⟩ :=
      Option.isSome_iff_exists.mp (List.getLast?_isSome.mpr hne)
    have hc0w : isWs c0 = false := hrlast c0 hc0
    have htr : trim (rest.dropWhile isWs) = rest.dropWhile isWs := by
      unfold trim
      rw [trimR_eq_self _ c0 hc0 hc0w]
      unfold trimL
      exact dropWhile_ws_idem rest
    rw [htr]
    have hc1 : ¬ ((rest.dropWhile isWs).isEmpty = true) := by
      intro hh
      exact hne ((isEmpty_true_iff _).mp hh)
    rw [if_neg hc1]

/-- Witness for the corrected C7 on a concrete heading with both sides
of the dash nonempty. -/
theorem C7_amended_witness :
    headingLoc "INT. CITY STREET - NIGHT".toList =
      ("CITY STREET".toList, "NIGHT".toList) := by
  have h := C7_amended.1 "INT. CITY STREET - NIGHT".toList
    " CITY STREET - NIGHT".toList 12 (by decide) (by decide) (by decide)
    (by decide)
  rw [h]
  decide

end ScriptEngine
